import Mathlib

/-!
Verification of the sourcemap toolkit core: a shallow embedding of the
VLQ codec, the memoized binary search, the TraceMap query functions and
the remapper composition, together with theorems settling the spec
claims.

Conventions of the embedding:
- JavaScript strings are modelled as lists of character codes
  (`List Nat`); `charCodeAt(i)` with a forward-moving index is modelled
  by the suffix of the list starting at `i`.
- JavaScript 32-bit signed integers (`Int32Array` slots and the results
  of the bitwise operators) are modelled as `Int` values together with
  explicit reduction `toInt32` (two-complement wraparound mod 2^32).
- Loops that consume at least one character per iteration are modelled
  with a fuel parameter initialised to the input length plus one, which
  provably never runs out; this keeps every definition executable by
  kernel reduction.
-/

namespace SourcemapToolkit

/-- A source map segment: a tuple of 1, 4 or 5 integers, modelled as a
list of integers (the TypeScript `SourceMapSegment`). -/
abbrev Seg := List Int

/-- Two-complement reduction of an integer to the signed 32-bit range,
modelling storage into an `Int32Array` slot and the result of the
JavaScript bitwise operators. -/
def toInt32 (n : Int) : Int :=
  let m := n % 4294967296
  if m < 2147483648 then m else m - 4294967296

/-- Character codes of the base64 alphabet string
`ABCDEFGHIJKLMNOPQRSTUVWXYZabcdefghijklmnopqrstuvwxyz0123456789+/=`
used by the codec (65 characters). -/
def chars : List Nat :=
  [65, 66, 67, 68, 69, 70, 71, 72, 73, 74, 75, 76, 77, 78, 79, 80, 81, 82,
   83, 84, 85, 86, 87, 88, 89, 90,
   97, 98, 99, 100, 101, 102, 103, 104, 105, 106, 107, 108, 109, 110, 111,
   112, 113, 114, 115, 116, 117, 118, 119, 120, 121, 122,
   48, 49, 50, 51, 52, 53, 54, 55, 56, 57,
   43, 47, 61]

/-- The `intToChar` table: digit value to character code. -/
def intToChar (d : Nat) : Nat := chars.getD d 0

/-- The `charToInteger` table: character code to digit value.  The
JavaScript table is a zero-initialised `Uint8Array(123)`, so codes that
are not in the alphabet (and out-of-range reads, which yield `undefined`
and behave as 0 in the later bitwise arithmetic) map to 0. -/
def charToInteger (c : Nat) : Nat :=
  if c < 123 then
    let i := chars.indexOf c
    if i < chars.length then i else 0
  else 0

/-- VLQ digit loop of `decodeInteger`: repeatedly read a character,
accumulate `value |= (integer & 31) << shift`, and continue while the
continuation bit (`integer & 32`) is set.  The accumulator is kept as
the unsigned 32-bit pattern (JavaScript `|` truncates to 32 bits, and
`<<` uses the shift count mod 32).  Reading past the end of the string
yields `undefined`, which behaves as digit 0 and ends the loop. -/
def decodeVlq : List Nat → Nat → Nat → List Nat × Nat
  | [], value, shift =>
      ([], (value ||| ((0 % 32) <<< (shift % 32))) % 4294967296)
  | c :: rest, value, shift =>
      let integer := charToInteger c
      let value := (value ||| ((integer % 32) <<< (shift % 32))) % 4294967296
      if 32 ≤ integer then decodeVlq rest value (shift + 5)
      else (rest, value)

/-- The `decodeInteger` function: read one signed VLQ value and add it
to the running state slot (an `Int32Array` slot, hence the `toInt32`).
Bit 0 of the raw value is the sign bit; the pattern with sign bit 1 and
magnitude 0 decodes to `-0x80000000`. -/
def decodeInteger (rest : List Nat) (s : Int) : List Nat × Int :=
  let r := decodeVlq rest 0 0
  let shouldNegate := r.2 % 2 = 1
  let v : Int := (r.2 / 2 : Nat)
  let value : Int := if shouldNegate then (if v = 0 then -2147483648 else -v) else v
  (r.1, toInt32 (s + value))

/-- The `hasMoreSegments` check: true when the next character exists and
is neither a comma nor a semicolon. -/
def hasMoreSegments : List Nat → Bool
  | [] => false
  | c :: _ => c ≠ 44 && c ≠ 59

/-- Row comparator key order: non-decreasing generated column
(`sortComparator` compares `a[0] - b[0]`). -/
def keyLe (a b : Seg) : Prop := a.getD 0 0 ≤ b.getD 0 0

instance : DecidableRel keyLe := fun a b => Int.decLe (a.getD 0 0) (b.getD 0 0)

instance : IsTrans Seg keyLe := ⟨fun _ _ _ h1 h2 => le_trans h1 h2⟩

instance : IsTotal Seg keyLe := ⟨fun _ _ => le_total _ _⟩

/-- The per-row `sort` function.  JavaScript `Array.prototype.sort` with
comparator `a[0] - b[0]` is a stable sort by generated column; any
stable sort by the same key computes the same list, so it is modelled
by insertion sort. -/
def sortLine (line : List Seg) : List Seg := List.insertionSort keyLe line

/-- The five-slot delta state of the codec (the `Int32Array(5)`):
generated column, source index, source line, source column, name
index. -/
structure VState where
  s0 : Int
  s1 : Int
  s2 : Int
  s3 : Int
  s4 : Int
deriving Repr, DecidableEq

/-- The initial all-zero state. -/
def VState.zero : VState := ⟨0, 0, 0, 0, 0⟩

/-- Main loop of `decode`, with fuel (each iteration consumes at least
one character, so fuel `length + 1` never runs out).  The zero-fuel
branch mirrors the loop exit. -/
def decodeLoop (fuel : Nat) (rest : List Nat) (st : VState)
    (decoded : List (List Seg)) (line : List Seg) (sorted : Bool) (lastCol : Int) :
    List (List Seg) :=
  match fuel with
  | 0 => decoded ++ [if sorted then line else sortLine line]
  | fuel + 1 =>
    match rest with
    | [] => decoded ++ [if sorted then line else sortLine line]
    | c :: rest' =>
      if c = 44 then
        decodeLoop fuel rest' st decoded line sorted lastCol
      else if c = 59 then
        decodeLoop fuel rest' { st with s0 := 0 }
          (decoded ++ [if sorted then line else sortLine line]) [] true 0
      else
        let r0 := decodeInteger (c :: rest') st.s0
        let col := r0.2
        let sorted := if col < lastCol then false else sorted
        if ¬ hasMoreSegments r0.1 then
          decodeLoop fuel r0.1 { st with s0 := col } decoded
            (line ++ [[col]]) sorted col
        else
          let r1 := decodeInteger r0.1 st.s1
          let r2 := decodeInteger r1.1 st.s2
          let r3 := decodeInteger r2.1 st.s3
          if ¬ hasMoreSegments r3.1 then
            decodeLoop fuel r3.1 ⟨col, r1.2, r2.2, r3.2, st.s4⟩ decoded
              (line ++ [[col, r1.2, r2.2, r3.2]]) sorted col
          else
            let r4 := decodeInteger r3.1 st.s4
            decodeLoop fuel r4.1 ⟨col, r1.2, r2.2, r3.2, r4.2⟩ decoded
              (line ++ [[col, r1.2, r2.2, r3.2, r4.2]]) sorted col

/-- The `decode` function of the codec on a list of character codes. -/
def decode (mappings : List Nat) : List (List Seg) :=
  decodeLoop (mappings.length + 1) mappings VState.zero [] [] true 0

/-- Digit loop of `encodeInteger` (the do-while): emit base-32 digits of
the unsigned 32-bit pattern, low first, with the continuation bit on
every digit except the last.  Fuel 8 suffices for every value below
2^35; the encoder only ever passes values below 2^32. -/
def encodeVlqGo : Nat → Nat → List Nat
  | 0, _ => []
  | fuel + 1, num =>
    let clamped := num % 32
    let num := num >>> 5
    if 0 < num then (clamped + 32) :: encodeVlqGo fuel num
    else [clamped]

/-- Digits of one VLQ-encoded value. -/
def encodeVlqDigits (num : Nat) : List Nat := encodeVlqGo 8 num

/-- The `encodeInteger` function: emit the delta `next - state[j]` as a
signed VLQ (character codes) and store `next` back into the state slot.
The doubling step reproduces the JavaScript `num < 0 ? (-num << 1) | 1
: num << 1` on 32-bit patterns. -/
def encodeInteger (s next : Int) : Int × List Nat :=
  let num := next - s
  let w : Nat :=
    if num < 0 then ((2 * (-num)).toNat % 4294967296) ||| 1
    else (2 * num).toNat % 4294967296
  (toInt32 next, (encodeVlqDigits w).map intToChar)

/-- Encode one segment: emit 1, 4 or 5 fields depending on the segment
arity, threading the delta state.  Arities other than 1 and 4 emit five
fields (the source treats any longer segment as five fields; arities 2
and 3 are outside the `SourceMapSegment` type and are undefined
behaviour in the JavaScript). -/
def encodeSegment (st : VState) (seg : Seg) : VState × List Nat :=
  let e0 := encodeInteger st.s0 (seg.getD 0 0)
  if seg.length = 1 then ({ st with s0 := e0.1 }, e0.2)
  else
    let e1 := encodeInteger st.s1 (seg.getD 1 0)
    let e2 := encodeInteger st.s2 (seg.getD 2 0)
    let e3 := encodeInteger st.s3 (seg.getD 3 0)
    if seg.length = 4 then
      (⟨e0.1, e1.1, e2.1, e3.1, st.s4⟩, e0.2 ++ e1.2 ++ e2.2 ++ e3.2)
    else
      let e4 := encodeInteger st.s4 (seg.getD 4 0)
      (⟨e0.1, e1.1, e2.1, e3.1, e4.1⟩, e0.2 ++ e1.2 ++ e2.2 ++ e3.2 ++ e4.2)

/-- Encode the segments of one line, separating consecutive segments
with commas (`isFirst` is true for the first segment of the line). -/
def encodeSegs (st : VState) (segs : List Seg) (isFirst : Bool) : VState × List Nat :=
  match segs with
  | [] => (st, [])
  | seg :: rest =>
    let e := encodeSegment st seg
    let r := encodeSegs e.1 rest false
    (r.1, (if isFirst then [] else [44]) ++ e.2 ++ r.2)

/-- Encode a list of lines: a semicolon before every line except the
first; empty lines emit nothing further and leave the state untouched;
non-empty lines reset the generated-column slot to 0 first. -/
def encodeLines (st : VState) (lines : List (List Seg)) (isFirst : Bool) : List Nat :=
  match lines with
  | [] => []
  | line :: rest =>
    let sep : List Nat := if isFirst then [] else [59]
    if line.length = 0 then sep ++ encodeLines st rest false
    else
      let e := encodeSegs { st with s0 := 0 } line true
      sep ++ e.2 ++ encodeLines e.1 rest false

/-- The `encode` function of the codec, producing character codes. -/
def encode (decoded : List (List Seg)) : List Nat :=
  encodeLines VState.zero decoded true

/-! ### Binary search with monotonic memoization -/

/-- Generated column of the segment at (integer) index `i` of a row;
used by the binary search (`haystack[mid][0]`). -/
def colAt (h : List Seg) (i : Int) : Int := (h.getD i.toNat []).getD 0 0

/-- Loop of `binarySearch`, with fuel (the window shrinks by at least
one per iteration, so fuel `length + 1` suffices for every window
inside the row).  Returns the index together with the `found` flag of
the binary-search module (true exactly when the loop hit `cmp === 0`);
the flag is modelled from the spec, which says the search publishes a
side flag indicating an exact match; the index component is exactly the
return value of the `binarySearch` in the source. -/
def bsGo (h : List Seg) (needle : Int) : Nat → Int → Int → Int × Bool
  | 0, low, _ => (low - 1, false)
  | fuel + 1, low, high =>
    if low ≤ high then
      let mid := low + (high - low) / 2
      let cmp := colAt h mid - needle
      if cmp = 0 then (mid, true)
      else if cmp < 0 then bsGo h needle fuel (mid + 1) high
      else bsGo h needle fuel low (mid - 1)
    else (low - 1, false)

/-- The `binarySearch` of the source together with the `found` flag. -/
def binarySearchF (h : List Seg) (needle low high : Int) : Int × Bool :=
  bsGo h needle (h.length + 1) low high

/-- The `binarySearch` function as exported by the source module. -/
def binarySearch (h : List Seg) (needle low high : Int) : Int :=
  (binarySearchF h needle low high).1

/-- The memo record of the binary-search module. -/
structure MemoState where
  lastKey : Int
  lastNeedle : Int
  lastIndex : Int
deriving Repr, DecidableEq

/-- The `memoizedState` constructor: all slots start at -1. -/
def memoizedState : MemoState := ⟨-1, -1, -1⟩

/-- The `memoizedBinarySearch` of the source: on a key hit with the same
needle return the cached index unchanged; on a key hit with a larger
needle constrain the low bound to `max lastIndex 0`; with a smaller
needle constrain the high bound to `lastIndex`; otherwise search the
full range.  Returns the index and the updated memo. -/
def memoizedBinarySearch (h : List Seg) (needle : Int) (state : MemoState)
    (key : Int) : Int × MemoState :=
  if key = state.lastKey ∧ needle = state.lastNeedle then
    (state.lastIndex, state)
  else
    let low := if key = state.lastKey ∧ state.lastNeedle ≤ needle
               then max state.lastIndex 0 else 0
    let high := if key = state.lastKey ∧ needle < state.lastNeedle
                then state.lastIndex else (h.length : Int) - 1
    let index := binarySearch h needle low high
    (index, ⟨key, needle, index⟩)

/-- Modelled from the spec: the found-publishing variant of
`memoizedBinarySearch` used by `traceSegmentInternal`.  The module that
defines `found`, `lowerBound` and `upperBound` is not part of the given
sources; per the spec the search publishes a side flag indicating an
exact match, which on a memo hit is recomputed from the cached index. -/
def memoizedBinarySearchF (h : List Seg) (needle : Int) (state : MemoState)
    (key : Int) : Int × Bool × MemoState :=
  if key = state.lastKey ∧ needle = state.lastNeedle then
    (state.lastIndex, state.lastIndex ≠ -1 && colAt h state.lastIndex = needle, state)
  else
    let low := if key = state.lastKey ∧ state.lastNeedle ≤ needle
               then max state.lastIndex 0 else 0
    let high := if key = state.lastKey ∧ needle < state.lastNeedle
                then state.lastIndex else (h.length : Int) - 1
    let r := binarySearchF h needle low high
    (r.1, r.2, ⟨key, needle, r.1⟩)

/-- Modelled from the spec: `lowerBound` widens a matched index to the
lowest index whose generated column equals the needle, scanning
downwards. -/
def lowerBoundN (h : List Seg) (needle : Int) : Nat → Nat
  | 0 => 0
  | i + 1 => if (h.getD i []).getD 0 0 = needle then lowerBoundN h needle i else i + 1

/-- Modelled from the spec: `upperBound` widens a matched index to the
highest index whose generated column equals the needle, scanning
upwards (fuel-structural; fuel `h.length` suffices). -/
def upperBoundGo (h : List Seg) (needle : Int) : Nat → Nat → Nat
  | 0, i => i
  | fuel + 1, i =>
    if i + 1 < h.length ∧ (h.getD (i + 1) []).getD 0 0 = needle then
      upperBoundGo h needle fuel (i + 1)
    else i

/-- Modelled from the spec: `upperBound` entry point. -/
def upperBound (h : List Seg) (needle : Int) (i : Nat) : Nat :=
  upperBoundGo h needle h.length i

/-- Bias constant `LEAST_UPPER_BOUND`. -/
def LEAST_UPPER_BOUND : Int := -1

/-- Bias constant `GREATEST_LOWER_BOUND`. -/
def GREATEST_LOWER_BOUND : Int := 1

/-- The `traceSegmentInternal` function: memoized search, then widen an
exact match with `lowerBound` or `upperBound` according to the bias, or
increment a miss under `LEAST_UPPER_BOUND`; out-of-range results map to
-1.  Returns the index and the updated memo. -/
def traceSegmentInternal (segments : List Seg) (memo : MemoState)
    (line column bias : Int) : Int × MemoState :=
  let r := memoizedBinarySearchF segments column memo line
  let index := r.1
  let index :=
    if r.2.1 then
      if bias = LEAST_UPPER_BOUND then (upperBound segments column index.toNat : Int)
      else (lowerBoundN segments column index.toNat : Int)
    else if bias = LEAST_UPPER_BOUND then index + 1
    else index
  if index = -1 ∨ index = segments.length then (-1, r.2.2) else (index, r.2.2)

/-! ### TraceMap query functions -/

/-- The fields of a TraceMap needed by the query functions; `sources`
entries may be null. -/
structure TraceMapM where
  names : List String
  sources : List (Option String)
  resolvedSources : List String
  decoded : List (List Seg)

/-- Result record of `originalPositionFor` (`OMapping`): either a full
position or the all-null record. -/
structure OPos where
  source : Option String
  line : Option Int
  column : Option Int
  name : Option String
deriving Repr, DecidableEq

/-- Result record of `generatedPositionFor` (`GMapping`). -/
structure GPos where
  line : Option Int
  column : Option Int
deriving Repr, DecidableEq

/-- The all-null `OMapping(null, null, null, null)`. -/
def OPos.null : OPos := ⟨none, none, none, none⟩

/-- The all-null `GMapping(null, null)`. -/
def GPos.null : GPos := ⟨none, none⟩

/-- JavaScript `Array.prototype.indexOf` over the sources list,
returning -1 when absent. -/
def indexOfSource (l : List (Option String)) (s : String) : Int :=
  match l.findIdx? (fun x => x = some s) with
  | some i => (i : Int)
  | none => -1

/-- JavaScript `Array.prototype.indexOf` over the resolved sources. -/
def indexOfResolved (l : List String) (s : String) : Int :=
  match l.findIdx? (fun x => x = s) with
  | some i => (i : Int)
  | none => -1

/-- The `originalPositionFor` query of the TraceMap: 1-based line,
0-based column; throws (models `throw new Error`) exactly on `line < 1`
or `column < 0`; otherwise returns a record or the all-null record.
The memo is the `_decodedMemo` slot of the map at call time. -/
def originalPositionFor (map : TraceMapM) (memo : MemoState)
    (line column bias : Int) : Except String OPos :=
  let line := line - 1
  if line < 0 then .error "line must be greater than 0"
  else if column < 0 then .error "column must be greater than or equal to 0"
  else
    let decoded := map.decoded
    if (decoded.length : Int) ≤ line then .ok OPos.null
    else
      let segments := decoded.getD line.toNat []
      let r := traceSegmentInternal segments memo line column
        (if bias = 0 then GREATEST_LOWER_BOUND else bias)
      let index := r.1
      if index = -1 then .ok OPos.null
      else
        let segment := segments.getD index.toNat []
        if segment.length = 1 then .ok OPos.null
        else
          .ok ⟨some (map.resolvedSources.getD (segment.getD 1 0).toNat ""),
               some (segment.getD 2 0 + 1),
               some (segment.getD 3 0),
               if segment.length = 5 then some (map.names.getD (segment.getD 4 0).toNat "")
               else none⟩

/-- Pad a by-source line table with absent rows up to length `n`. -/
def padTo (l : List (Option (List Seg))) (n : Nat) : List (Option (List Seg)) :=
  l ++ List.replicate (n - l.length) none

/-- Append one reverse segment to the row of an original line,
materialising the row if absent. -/
def insertRev (src : List (Option (List Seg))) (oline : Nat) (rseg : Seg) :
    List (Option (List Seg)) :=
  let src := padTo src (oline + 1)
  src.set oline (some (((src.getD oline none).getD []) ++ [rseg]))

/-- Modelled from the spec: one step of the by-source construction.
For a forward segment of arity at least 4, append the reverse segment
`[origCol, genLine, genCol]` to `bySource[sourceIdx][srcLine]`.  The
spec invariants guarantee the indices are in range; out-of-range
segments are skipped. -/
def bySourceSeg (tbl : List (List (Option (List Seg)))) (genLine : Nat)
    (seg : Seg) : List (List (Option (List Seg))) :=
  if seg.length < 4 then tbl
  else
    let si := seg.getD 1 0
    let ol := seg.getD 2 0
    if 0 ≤ si ∧ 0 ≤ ol ∧ si.toNat < tbl.length then
      tbl.set si.toNat
        (insertRev (tbl.getD si.toNat []) ol.toNat
          [seg.getD 3 0, (genLine : Int), seg.getD 0 0])
    else tbl

/-- Modelled from the spec: fold the by-source construction over the
rows of the decoded forward map. -/
def bySourceRows (rows : List (List Seg)) (genLine : Nat)
    (tbl : List (List (Option (List Seg)))) : List (List (Option (List Seg))) :=
  match rows with
  | [] => tbl
  | row :: rest => bySourceRows rest (genLine + 1) (row.foldl (bySourceSeg · genLine ·) tbl)

/-- Modelled from the spec: `buildBySources` is not part of the given
sources; per the spec (section 4.4) it builds, for each source, a table
of original lines whose rows hold the reverse segments
`[origCol, genLine, genCol]`, each row sorted by original column, with
untouched rows absent. -/
def buildBySources (decoded : List (List Seg)) (nSources : Nat) :
    List (List (Option (List Seg))) :=
  (bySourceRows decoded 0 (List.replicate nSources [])).map
    (fun src => src.map (Option.map sortLine))

/-- The `generatedPositionFor` query (the internal `generatedPosition`
with `all = false`): throws exactly on `line < 1` or `column < 0`;
unknown sources and absent original lines give the all-null record.
The memo is the per-source `_bySourceMemos` slot. -/
def generatedPositionFor (map : TraceMapM) (memo : MemoState)
    (source : String) (line column bias : Int) : Except String GPos :=
  let line := line - 1
  if line < 0 then .error "line must be greater than 0"
  else if column < 0 then .error "column must be greater than or equal to 0"
  else
    let sourceIndex := indexOfSource map.sources source
    let sourceIndex := if sourceIndex = -1 then indexOfResolved map.resolvedSources source
                       else sourceIndex
    if sourceIndex = -1 then .ok GPos.null
    else
      let generated := buildBySources map.decoded map.sources.length
      match (generated.getD sourceIndex.toNat []).getD line.toNat none with
      | none => .ok GPos.null
      | some segments =>
        let r := traceSegmentInternal segments memo line column
          (if bias = 0 then GREATEST_LOWER_BOUND else bias)
        let index := r.1
        if index = -1 then .ok GPos.null
        else
          let segment := segments.getD index.toNat []
          .ok ⟨some (segment.getD 1 0 + 1), some (segment.getD 2 0)⟩

/-! ### Remapper: source map tree and recursive composition -/

/-- The decoded map fields the tree composition reads. -/
structure DecMapT where
  mappings : List (List Seg)
  names : List String
deriving Repr

/-- The remapper graph: an `OriginalSource` leaf holding filename and
content, or a `SourceMapTree` node holding a decoded map and child
graphs (one per source of the map). -/
inductive Graph where
  | leaf (filename : String) (content : Option String)
  | node (map : DecMapT) (sources : List Graph)
deriving Repr

/-- The traced-segment object (`SourceMapSegmentObject`). -/
structure SegObj where
  line : Int
  column : Int
  name : String
  filename : String
  content : Option String
deriving Repr, DecidableEq

/-- Row lookup `this.map.mappings[line]`: absent (the falsy `undefined`)
when the line is negative or past the end. -/
def rowAt (rows : List (List Seg)) (line : Int) : Option (List Seg) :=
  if 0 ≤ line ∧ line.toNat < rows.length then some (rows.getD line.toNat []) else none

/-- Modelled from the spec: the comparator binary search of the
remapper package is not part of the given sources; per the spec it
returns the greatest-lower-bound index of the needle column in a row,
the same algorithm as the codec-side `binarySearch` over the full
range. -/
def remapSearch (segments : List Seg) (column : Int) : Int :=
  binarySearch segments column 0 ((segments.length : Int) - 1)

/-- The recursive `traceSegment` of the source map tree: a leaf ends
the trace with the current position and name; a node looks up its row
(failing on an invalid line), searches the greatest lower bound of the
column, gives up (`none`) before any mapped segment or on an arity-1
segment, and recurses into the child named by the segment, where a
name index in the segment replaces the incoming name.  A source index
outside the children list is a type error in the JavaScript, modelled
as an error.  The recursion is fuel-structural; the JavaScript
recursion terminates because the graph is a finite tree, so every
concrete graph has a sufficient fuel. -/
def traceSegmentG (fuel : Nat) (g : Graph) (line column : Int) (name : String) :
    Except String (Option SegObj) :=
  match fuel with
  | 0 => .error "recursion depth exhausted"
  | fuel + 1 =>
    match g with
    | .leaf f c => .ok (some ⟨line, column, name, f, c⟩)
    | .node m srcs =>
      match rowAt m.mappings line with
      | none => .error "sourcemap pointed to invalid line"
      | some segments =>
        let index := remapSearch segments column
        if index < 0 then .ok none
        else
          let segment := segments.getD index.toNat []
          if segment.length = 1 then .ok none
          else
            let si := segment.getD 1 0
            match srcs.get? si.toNat with
            | none => .error "invalid source index"
            | some child =>
              traceSegmentG fuel child (segment.getD 2 0) (segment.getD 3 0)
                (if segment.length = 5 then m.names.getD (segment.getD 4 0).toNat ""
                 else name)

/-- The `FastStringArray`: an ordered list of unique keys (the source
also keeps a hash of indexes, which only memoizes `indexOf`). -/
structure FSA where
  array : List String
deriving Repr, DecidableEq

/-- The `put` operation of `FastStringArray`: index of the key,
appending it first when absent. -/
def put (strarr : FSA) (key : String) : Nat × FSA :=
  if key ∈ strarr.array then (strarr.array.indexOf key, strarr)
  else (strarr.array.length, ⟨strarr.array ++ [key]⟩)

/-- Write `sourcesContent[sourceIndex] = content`; `put` guarantees the
index is at most the current length, so this either overwrites or
appends. -/
def setContent (l : List (Option String)) (i : Nat) (c : Option String) :
    List (Option String) :=
  if i < l.length then l.set i c else l ++ [c]

/-- Accumulator of `traceMappings`: output names and sources tables and
the parallel contents list. -/
structure TraceAcc where
  names : FSA
  sources : FSA
  sourcesContent : List (Option String)
deriving Repr

/-- The body of the segment loop of `traceMappings`: skip arity-1
segments, trace through the child at the source index (failing when the
index is out of range, a type error in the JavaScript), skip segments
whose trace finds nothing, and otherwise emit a rewritten segment that
keeps the generated column, using the 5-field form exactly when the
surviving name is non-empty. -/
def traceOneSeg (fuel : Nat) (m : DecMapT) (srcs : List Graph) (acc : TraceAcc) (seg : Seg) :
    Except String (Option Seg × TraceAcc) :=
  if seg.length = 1 then .ok (none, acc)
  else
    match srcs.get? (seg.getD 1 0).toNat with
    | none => .error "invalid source index"
    | some source =>
      match traceSegmentG fuel source (seg.getD 2 0) (seg.getD 3 0)
          (if seg.length = 5 then m.names.getD (seg.getD 4 0).toNat "" else "") with
      | .error e => .error e
      | .ok none => .ok (none, acc)
      | .ok (some traced) =>
        let p := put acc.sources traced.filename
        let sourceIndex := p.1
        let content := setContent acc.sourcesContent sourceIndex traced.content
        if traced.name ≠ "" then
          let pn := put acc.names traced.name
          .ok (some [seg.getD 0 0, (sourceIndex : Int), traced.line, traced.column,
                     (pn.1 : Int)],
               ⟨pn.2, p.2, content⟩)
        else
          .ok (some [seg.getD 0 0, (sourceIndex : Int), traced.line, traced.column],
               ⟨acc.names, p.2, content⟩)

/-- The segment loop of `traceMappings` over one row. -/
def traceRow (fuel : Nat) (m : DecMapT) (srcs : List Graph) (acc : TraceAcc) :
    List Seg → Except String (List Seg × TraceAcc)
  | [] => .ok ([], acc)
  | seg :: rest =>
    match traceOneSeg fuel m srcs acc seg with
    | .error e => .error e
    | .ok (emitted, acc) =>
      match traceRow fuel m srcs acc rest with
      | .error e => .error e
      | .ok (segs, acc) => .ok ((emitted.toList) ++ segs, acc)

/-- The row loop of `traceMappings`. -/
def traceRows (fuel : Nat) (m : DecMapT) (srcs : List Graph) (acc : TraceAcc) :
    List (List Seg) → Except String (List (List Seg) × TraceAcc)
  | [] => .ok ([], acc)
  | row :: rest =>
    match traceRow fuel m srcs acc row with
    | .error e => .error e
    | .ok (traced, acc) =>
      match traceRows fuel m srcs acc rest with
      | .error e => .error e
      | .ok (rows, acc) => .ok (traced :: rows, acc)

/-- Output envelope of `traceMappings`. -/
structure TracedMap where
  mappings : List (List Seg)
  names : List String
  sources : List String
  sourcesContent : List (Option String)
deriving Repr

/-- The `traceMappings` of the source map tree: one output row per root
row, each built by the segment loop with fresh unique tables. -/
def traceMappings (fuel : Nat) (m : DecMapT) (srcs : List Graph) : Except String TracedMap :=
  match traceRows fuel m srcs ⟨⟨[]⟩, ⟨[]⟩, []⟩ m.mappings with
  | .error e => .error e
  | .ok (mappings, acc) =>
    .ok ⟨mappings, acc.names.array, acc.sources.array, acc.sourcesContent⟩

/-! ### Remapper: graph construction and loader calls -/

/-- The map fields `buildSourceMapGraph` reads. -/
structure SMapC where
  sourceRoot : Option String
  sources : List String
  sourcesContent : Option (List (Option String))

/-- Graph produced by `buildSourceMapGraph` (loader reachability only;
the decoded mappings are irrelevant to the loader-call claim). -/
inductive GNode where
  | original (filename : String) (content : Option String)
  | node (map : SMapC) (children : List GNode)

/-- The `buildSourceMapGraph` function: for each entry of the sources
list in order, resolve it against the sourceRoot, call the loader once,
and either keep an original-source leaf (loader returned nothing) or
recurse into the returned child map.  Alongside the graph it returns
the trace of loader invocations, each tagged with its nesting level.
The `resolve` function is the external URL resolver of the spec, passed
as a parameter; `fuel` bounds the recursion depth (the JavaScript
recursion is bounded by the loader-produced DAG). -/
def buildSourceMapGraph (fuel : Nat) (resolve : String → Option String → String)
    (loader : String → Option SMapC) (map : SMapC) (depth : Nat) :
    GNode × List (Nat × String) :=
  match fuel with
  | 0 => (.node map [], [])
  | fuel + 1 =>
    let step := map.sources.foldr
      (fun sourceFile (acc : List GNode × List (Nat × String)) =>
        let file := resolve sourceFile map.sourceRoot
        match loader file with
        | none =>
          (.original sourceFile none :: acc.1, (depth, file) :: acc.2)
        | some child =>
          let r := buildSourceMapGraph fuel resolve loader child (depth + 1)
          (r.1 :: acc.1, (depth, file) :: r.2 ++ acc.2))
      ([], [])
    (.node map step.1, step.2)

/-! ### Auxiliary definitions used by the theorem statements -/

/-- Generated column of the segment at Nat index `i` of a row. -/
def colN (h : List Seg) (i : Nat) : Int := (h.getD i []).getD 0 0

/-- Run a sequence of queries through `memoizedBinarySearch` with a
fixed key, threading the memo, and collect the returned indices. -/
def runQueries (h : List Seg) (key : Int) : MemoState → List Int → List Int
  | _, [] => []
  | s, q :: qs =>
    let r := memoizedBinarySearch h q s key
    r.1 :: runQueries h key r.2 qs

/-- Strict key order on segments (rows without duplicate columns). -/
def keyLt (a b : Seg) : Prop := a.getD 0 0 < b.getD 0 0

instance : DecidableRel keyLt := fun a b => Int.decLt (a.getD 0 0) (b.getD 0 0)

/-- The greatest-lower-bound specification of a full-range binary
search result on a sorted row: every index up to the result carries a
column at most the needle, every later index a column beyond it. -/
def GlbP (h : List Seg) (needle r : Int) : Prop :=
  -1 ≤ r ∧ r < h.length ∧
  (∀ i : Int, 0 ≤ i → i ≤ r → colAt h i ≤ needle) ∧
  (∀ i : Int, r < i → i < h.length → needle < colAt h i)

/-- Result specification for `GREATEST_LOWER_BOUND` when an exact
match exists: the least index holding the needle column. -/
def GlbMatchRes (h : List Seg) (needle r : Int) : Prop :=
  0 ≤ r ∧ r < h.length ∧ colAt h r = needle ∧
  ∀ i : Int, 0 ≤ i → i < h.length → colAt h i = needle → r ≤ i

/-- Result specification for `LEAST_UPPER_BOUND` when an exact match
exists: the greatest index holding the needle column. -/
def LubMatchRes (h : List Seg) (needle r : Int) : Prop :=
  0 ≤ r ∧ r < h.length ∧ colAt h r = needle ∧
  ∀ i : Int, 0 ≤ i → i < h.length → colAt h i = needle → i ≤ r

/-- Result specification for `GREATEST_LOWER_BOUND` without an exact
match: -1 when the needle precedes every column, otherwise the greatest
index whose column is below the needle. -/
def GlbMissRes (h : List Seg) (needle r : Int) : Prop :=
  (r = -1 ∧ ∀ i : Int, 0 ≤ i → i < h.length → needle < colAt h i) ∨
  (0 ≤ r ∧ r < h.length ∧ colAt h r < needle ∧
    ∀ i : Int, r < i → i < h.length → needle < colAt h i)

/-- Result specification for `LEAST_UPPER_BOUND` without an exact
match: -1 when every column is below the needle, otherwise the least
index whose column is beyond the needle. -/
def LubMissRes (h : List Seg) (needle r : Int) : Prop :=
  (r = -1 ∧ ∀ i : Int, 0 ≤ i → i < h.length → colAt h i < needle) ∨
  (0 ≤ r ∧ r < h.length ∧ needle < colAt h r ∧
    ∀ i : Int, 0 ≤ i → i < r → colAt h i < needle)

/-- Table monotonicity for the unique ordered string tables of the
remapper: the second table extends the first, preserving entries. -/
def FsaLe (f g : FSA) : Prop :=
  f.array.length ≤ g.array.length ∧
  ∀ j, j < f.array.length → g.array.getD j "" = f.array.getD j ""

/-- All names in a table are non-empty. -/
def NamesOk (f : FSA) : Prop := ∀ nm ∈ f.array, nm ≠ ""

/-- Success test for a result: false exactly when the operation threw. -/
def isOkE {α : Type} : Except String α → Bool
  | .ok _ => true
  | .error _ => false

/-- The decode loop with its canonical fuel (input length plus one,
which the loop provably never exhausts). -/
def decodeRun (rest : List Nat) (st : VState) (decoded : List (List Seg))
    (line : List Seg) (sorted : Bool) (lastCol : Int) : List (List Seg) :=
  decodeLoop (rest.length + 1) rest st decoded line sorted lastCol

/-- A decode position at a segment boundary: end of input, or a comma
or semicolon next. -/
def IsSep : List Nat → Prop
  | [] => True
  | c :: _ => c = 44 ∨ c = 59

/-- A non-negative signed 32-bit value. -/
def InRange (v : Int) : Prop := 0 ≤ v ∧ v < 2147483648

/-- A well-formed segment: arity 1, 4 or 5, all values non-negative
32-bit integers. -/
def SegOk (seg : Seg) : Prop :=
  (seg.length = 1 ∨ seg.length = 4 ∨ seg.length = 5) ∧ ∀ v ∈ seg, InRange v

/-- A well-formed delta state: all five slots in range. -/
def StOk (st : VState) : Prop :=
  InRange st.s0 ∧ InRange st.s1 ∧ InRange st.s2 ∧ InRange st.s3 ∧ InRange st.s4

/-- A well-formed decoded mappings value: every row holds well-formed
segments sorted by generated column. -/
def MapOk (d : List (List Seg)) : Prop :=
  ∀ row ∈ d, (∀ seg ∈ row, SegOk seg) ∧ List.Pairwise keyLe row

/-- Running generated column after a list of segments. -/
def lastColAfter (lc : Int) : List Seg → Int
  | [] => lc
  | s :: rest => lastColAfter (s.getD 0 0) rest

/-- Memo invariant for a fixed key: either the fresh state, or a state
whose cached index is the greatest lower bound of the cached needle. -/
def MemoInv (h : List Seg) (key : Int) (s : MemoState) : Prop :=
  s = memoizedState ∨ (s.lastKey = key ∧ GlbP h s.lastNeedle s.lastIndex)

/-! ## Theorems -/

/-! ### Arithmetic helpers -/

theorem toInt32_eq_self {n : Int} (h1 : -2147483648 ≤ n) (h2 : n < 2147483648) :
    toInt32 n = n := by
  simp only [toInt32]
  split <;> omega

theorem charToInteger_intToChar : ∀ d : Nat, d < 64 → charToInteger (intToChar d) = d := by
  decide

theorem intToChar_ne_sep : ∀ d : Nat, d < 64 → intToChar d ≠ 44 ∧ intToChar d ≠ 59 := by
  decide

/-! ### C8: the sentinel value -/

/-- C8: encoding a delta of exactly `-0x80000000` emits the single VLQ
digit with sign bit 1 and magnitude 0 (digit value 1, character `B`,
code 66), the decoder maps that digit back to a delta of
`-0x80000000`, and the value round-trips: decoding from the encoder
start state recovers the encoded value. -/
theorem sentinel_roundtrip (s next : Int) (hs0 : 0 ≤ s) (hs1 : s < 2147483648)
    (hd : next - s = -2147483648) :
    (encodeInteger s next).2 = [66] ∧
    (∀ (rest : List Nat) (s2 : Int),
      decodeInteger (66 :: rest) s2 = (rest, toInt32 (s2 - 2147483648))) ∧
    (decodeInteger [66] s).2 = next := by
  refine ⟨?_, ?_, ?_⟩
  · simp only [encodeInteger, hd]
    norm_num
    decide
  · intro rest s2
    have hc : charToInteger 66 = 1 := by decide
    simp [decodeInteger, decodeVlq, hc]
    rw [Int.sub_eq_add_neg]
  · have hc : charToInteger 66 = 1 := by decide
    simp [decodeInteger, decodeVlq, hc]
    have h2 : s + -2147483648 = next := by omega
    rw [h2]
    exact toInt32_eq_self (by omega) (by omega)

/-- Witness for `sentinel_roundtrip` at `s = 0`, `next = -0x80000000`. -/
theorem sentinel_roundtrip_witness :
    (0 ≤ (0 : Int) ∧ (0 : Int) < 2147483648 ∧ (-2147483648 : Int) - 0 = -2147483648) ∧
    ((encodeInteger 0 (-2147483648)).2 = [66] ∧
     (∀ (rest : List Nat) (s2 : Int),
       decodeInteger (66 :: rest) s2 = (rest, toInt32 (s2 - 2147483648))) ∧
     (decodeInteger [66] 0).2 = -2147483648) :=
  ⟨by norm_num, sentinel_roundtrip 0 (-2147483648) (by norm_num) (by norm_num) (by norm_num)⟩

/-! ### C2: malformed input never fails -/

/-- C2 counterexample: the decoder has no failure path.  Code 42 (the
character `*`) is outside the base64 alphabet, and code 103 (the
character `g`) is a digit with the continuation bit set followed by end
of input (a premature EOF mid-integer); on both malformed inputs
`decode` returns a decoded mappings array rather than failing. -/
theorem decode_malformed_counterexample :
    decode [42] = [[[0]]] ∧ decode [103] = [[[0]]] := by
  constructor <;> rfl

/-- C2 amended: for a character outside the base64 alphabet (and not a
separator), the zero-initialised lookup table makes the decoder treat
it exactly like the character `A` (code 65, digit value 0); no error is
raised. -/
theorem decode_malformed_amended (c : Nat) (m : List Nat) (h1 : c < 123)
    (h2 : c ∉ chars) (h3 : c ≠ 44) (h4 : c ≠ 59) :
    decode (c :: m) = decode (65 :: m) := by
  have hc : charToInteger c = 0 := by
    simp only [charToInteger, if_pos h1]
    have := List.indexOf_eq_length.mpr h2
    simp [this]
  have h65 : charToInteger 65 = 0 := by decide
  have key : decodeInteger (c :: m) VState.zero.s0 = decodeInteger (65 :: m) VState.zero.s0 := by
    simp [decodeInteger, decodeVlq, hc, h65]
  simp only [decode, List.length_cons]
  rw [decodeLoop, decodeLoop]
  simp only [if_neg h3, if_neg h4, key]
  norm_num

/-- Witness for `decode_malformed_amended` at `c = 42`, `m = [65]`. -/
theorem decode_malformed_amended_witness :
    (42 < 123 ∧ 42 ∉ chars ∧ 42 ≠ 44 ∧ 42 ≠ 59) ∧
    decode [42, 65] = decode [65, 65] :=
  ⟨by decide, decode_malformed_amended 42 [65] (by decide) (by decide) (by decide) (by decide)⟩

/-! ### C5: loader invocations of the graph builder -/

theorem buildSourceMapGraph_depth (fuel : Nat) (resolve : String → Option String → String)
    (loader : String → Option SMapC) :
    ∀ (map : SMapC) (depth : Nat) (p : Nat × String),
      p ∈ (buildSourceMapGraph fuel resolve loader map depth).2 → depth ≤ p.1 := by
  induction fuel with
  | zero =>
    intro map depth p hp
    simp [buildSourceMapGraph] at hp
  | succ fuel ih =>
    intro map depth p hp
    simp only [buildSourceMapGraph] at hp
    revert hp
    generalize map.sources = l
    induction l with
    | nil =>
      intro hp
      simp at hp
    | cons s rest ihl =>
      intro hp
      simp only [List.foldr_cons] at hp
      rcases hload : loader (resolve s map.sourceRoot) with _ | child
      · simp only [hload, List.mem_cons] at hp
        rcases hp with rfl | hp
        · simp
        · exact ihl hp
      · simp only [hload, List.mem_cons, List.mem_append, or_assoc] at hp
        rcases hp with rfl | hp | hp
        · simp
        · have := ih child (depth + 1) p hp
          omega
        · exact ihl hp

/-- C5 counterexample: with a root map whose sources list holds the
same name twice, the loader is invoked twice with that name at nesting
level 0; the level-0 call list is not duplicate-free, contradicting
"exactly once per distinct resolved source name at each nesting
level". -/
theorem loader_calls_counterexample :
    ((buildSourceMapGraph 2 (fun s _ => s) (fun _ => none)
        ⟨none, ["a.js", "a.js"], none⟩ 0).2 = [(0, "a.js"), (0, "a.js")]) ∧
    ¬ ((buildSourceMapGraph 2 (fun s _ => s) (fun _ => none)
        ⟨none, ["a.js", "a.js"], none⟩ 0).2.map Prod.snd).Nodup := by
  constructor
  · rfl
  · decide

/-- C5 amended: during graph construction the loader is invoked exactly
once per entry of the sources list at each nesting level, in traversal
order (duplicate entries produce duplicate invocations): the calls made
at the level of a map are exactly the resolved sources of that map, in
order. -/
theorem loader_calls_amended (fuel : Nat) (resolve : String → Option String → String)
    (loader : String → Option SMapC) (map : SMapC) (depth : Nat) (hf : 0 < fuel) :
    ((buildSourceMapGraph fuel resolve loader map depth).2.filter
        (fun p => p.1 = depth)).map Prod.snd
      = map.sources.map (fun s => resolve s map.sourceRoot) := by
  obtain ⟨f, rfl⟩ : ∃ f, fuel = f + 1 := ⟨fuel - 1, by omega⟩
  simp only [buildSourceMapGraph]
  generalize map.sources = l
  induction l with
  | nil => rfl
  | cons s rest ihl =>
    simp only [List.foldr_cons]
    rcases hload : loader (resolve s map.sourceRoot) with _ | child
    · simp only [hload]
      rw [List.filter_cons_of_pos (by simp)]
      simp only [List.map_cons]
      rw [ihl]
    · have hchild : ((buildSourceMapGraph f resolve loader child (depth + 1)).2.filter
          (fun p => decide (p.1 = depth))) = [] := by
        rw [List.filter_eq_nil_iff]
        intro p hp
        have := buildSourceMapGraph_depth f resolve loader child (depth + 1) p hp
        simp only [decide_eq_true_eq]
        omega
      simp only [hload]
      rw [List.filter_append, List.filter_cons_of_pos (by simp), hchild]
      simp only [List.singleton_append, List.map_cons]
      rw [ihl]

/-- Witness for `loader_calls_amended` at a concrete map and loader. -/
theorem loader_calls_amended_witness :
    0 < 1 ∧
    ((buildSourceMapGraph 1 (fun s _ => s) (fun _ => none)
        ⟨none, ["a.js", "b.js"], none⟩ 0).2.filter (fun p => p.1 = 0)).map Prod.snd
      = ["a.js", "b.js"] :=
  ⟨by decide,
   loader_calls_amended 1 (fun s _ => s) (fun _ => none) ⟨none, ["a.js", "b.js"], none⟩ 0
     (by decide)⟩

/-! ### C9: every decoded row is sorted -/

theorem emit_sorted {line : List Seg} {sorted : Bool} {lastCol : Int}
    (hline : sorted = true → List.Pairwise keyLe line ∧ ∀ s ∈ line, s.getD 0 0 ≤ lastCol) :
    List.Pairwise keyLe (if sorted then line else sortLine line) := by
  by_cases hs : sorted = true
  · rw [if_pos hs]
    exact (hline hs).1
  · rw [if_neg hs]
    exact List.sorted_insertionSort keyLe line

theorem row_grow {line : List Seg} {lastCol col : Int}
    (hp : List.Pairwise keyLe line) (hb : ∀ s ∈ line, s.getD 0 0 ≤ lastCol)
    (hc : lastCol ≤ col) (n : Seg) (hn : n.getD 0 0 = col) :
    List.Pairwise keyLe (line ++ [n]) ∧ ∀ s ∈ line ++ [n], s.getD 0 0 ≤ col := by
  constructor
  · rw [List.pairwise_append]
    refine ⟨hp, List.pairwise_singleton _ _, ?_⟩
    intro a ha b hb'
    simp only [List.mem_singleton] at hb'
    show keyLe a b
    unfold keyLe
    rw [hb', hn]
    exact le_trans (hb a ha) hc
  · intro s hs
    rw [List.mem_append] at hs
    rcases hs with hs | hs
    · exact le_trans (hb s hs) hc
    · simp only [List.mem_singleton] at hs
      rw [hs, hn]

theorem decodeLoop_rows_sorted (fuel : Nat) :
    ∀ (rest : List Nat) (st : VState) (decoded : List (List Seg)) (line : List Seg)
      (sorted : Bool) (lastCol : Int),
      (∀ row ∈ decoded, List.Pairwise keyLe row) →
      (sorted = true → List.Pairwise keyLe line ∧ ∀ s ∈ line, s.getD 0 0 ≤ lastCol) →
      ∀ row ∈ decodeLoop fuel rest st decoded line sorted lastCol,
        List.Pairwise keyLe row := by
  induction fuel with
  | zero =>
    intro rest st decoded line sorted lastCol hdec hline row hrow
    simp only [decodeLoop] at hrow
    rw [List.mem_append] at hrow
    rcases hrow with h | h
    · exact hdec row h
    · simp only [List.mem_singleton] at h
      subst h
      exact emit_sorted hline
  | succ fuel ih =>
    intro rest st decoded line sorted lastCol hdec hline row hrow
    cases rest with
    | nil =>
      simp only [decodeLoop] at hrow
      rw [List.mem_append] at hrow
      rcases hrow with h | h
      · exact hdec row h
      · simp only [List.mem_singleton] at h
        subst h
        exact emit_sorted hline
    | cons c rest' =>
      rw [decodeLoop] at hrow
      by_cases h44 : c = 44
      · rw [if_pos h44] at hrow
        exact ih _ _ _ _ _ _ hdec hline row hrow
      · rw [if_neg h44] at hrow
        by_cases h59 : c = 59
        · rw [if_pos h59] at hrow
          refine ih _ _ _ _ _ _ ?_ ?_ row hrow
          · intro r hr
            rw [List.mem_append] at hr
            rcases hr with hr | hr
            · exact hdec r hr
            · simp only [List.mem_singleton] at hr
              subst hr
              exact emit_sorted hline
          · intro _
            exact ⟨List.Pairwise.nil, by simp⟩
        · rw [if_neg h59] at hrow
          set col := (decodeInteger (c :: rest') st.s0).2 with hcol
          have hstep : ∀ (n : Seg), n.getD 0 0 = col →
              (if col < lastCol then false else sorted) = true →
              List.Pairwise keyLe (line ++ [n]) ∧
                ∀ s ∈ line ++ [n], s.getD 0 0 ≤ col := by
            intro n hn hs
            by_cases hlt : col < lastCol
            · rw [if_pos hlt] at hs
              exact absurd hs (by simp)
            · rw [if_neg hlt] at hs
              obtain ⟨hp, hb⟩ := hline hs
              exact row_grow hp hb (by omega) n hn
          by_cases hm1 : ¬ hasMoreSegments (decodeInteger (c :: rest') st.s0).1
          · rw [if_pos hm1] at hrow
            exact ih _ _ _ _ _ _ hdec (hstep [col] rfl) row hrow
          · rw [if_neg hm1] at hrow
            by_cases hm4 : ¬ hasMoreSegments (decodeInteger (decodeInteger (decodeInteger
                (decodeInteger (c :: rest') st.s0).1 st.s1).1 st.s2).1 st.s3).1
            · rw [if_pos hm4] at hrow
              exact ih _ _ _ _ _ _ hdec (hstep [col, _, _, _] rfl) row hrow
            · rw [if_neg hm4] at hrow
              exact ih _ _ _ _ _ _ hdec (hstep [col, _, _, _, _] rfl) row hrow

/-- C9: every row of the decoded mappings produced by `decode` is
non-decreasing in generated column, for every input string: rows the
streaming pass saw out of order were sorted before being pushed, and
rows built in order (which the pass leaves untouched) are sorted by
construction; this covers rows terminated by a semicolon and the final
row alike. -/
theorem decode_rows_sorted (m : List Nat) :
    ∀ row ∈ decode m, List.Pairwise keyLe row := by
  intro row hrow
  exact decodeLoop_rows_sorted (m.length + 1) m VState.zero [] [] true 0
    (by simp) (fun _ => ⟨List.Pairwise.nil, by simp⟩) row hrow

/-- Witness for `decode_rows_sorted` at the input string `A`. -/
theorem decode_rows_sorted_witness :
    [[(0 : Int)]] ∈ decode [65] ∧ List.Pairwise keyLe [[(0 : Int)]] :=
  ⟨by decide, decode_rows_sorted [65] [[(0 : Int)]] (by decide)⟩

/-! ### Binary search characterisation -/

theorem sorted_colN_mono {h : List Seg} (hs : List.Pairwise keyLe h) :
    ∀ i j : Nat, i ≤ j → j < h.length → colN h i ≤ colN h j := by
  intro i j hij hj
  rcases Nat.eq_or_lt_of_le hij with rfl | hlt
  · exact le_refl _
  · have hi : i < h.length := Nat.lt_trans hlt hj
    have hkey := List.pairwise_iff_get.mp hs ⟨i, hi⟩ ⟨j, hj⟩ hlt
    have e1 : h.getD i [] = h.get ⟨i, hi⟩ := by
      simp [List.getD_eq_getElem?_getD, List.getElem?_eq_getElem hi, List.get_eq_getElem]
    have e2 : h.getD j [] = h.get ⟨j, hj⟩ := by
      simp [List.getD_eq_getElem?_getD, List.getElem?_eq_getElem hj, List.get_eq_getElem]
    unfold colN
    rw [e1, e2]
    exact hkey

theorem strict_colN_mono {h : List Seg} (hs : List.Pairwise keyLt h) :
    ∀ i j : Nat, i < j → j < h.length → colN h i < colN h j := by
  intro i j hij hj
  have hi : i < h.length := Nat.lt_trans hij hj
  have hkey := List.pairwise_iff_get.mp hs ⟨i, hi⟩ ⟨j, hj⟩ hij
  have e1 : h.getD i [] = h.get ⟨i, hi⟩ := by
    simp [List.getD_eq_getElem?_getD, List.getElem?_eq_getElem hi, List.get_eq_getElem]
  have e2 : h.getD j [] = h.get ⟨j, hj⟩ := by
    simp [List.getD_eq_getElem?_getD, List.getElem?_eq_getElem hj, List.get_eq_getElem]
  unfold colN
  rw [e1, e2]
  exact hkey

theorem colAt_mono {h : List Seg} (hs : List.Pairwise keyLe h) {i j : Int}
    (h0 : 0 ≤ i) (hij : i ≤ j) (hj : j < (h.length : Int)) : colAt h i ≤ colAt h j := by
  show colN h i.toNat ≤ colN h j.toNat
  exact sorted_colN_mono hs i.toNat j.toNat (by omega) (by omega)

theorem colAt_strict_mono {h : List Seg} (hs : List.Pairwise keyLt h) {i j : Int}
    (h0 : 0 ≤ i) (hij : i < j) (hj : j < (h.length : Int)) : colAt h i < colAt h j := by
  show colN h i.toNat < colN h j.toNat
  exact strict_colN_mono hs i.toNat j.toNat (by omega) (by omega)

theorem keyLt_pairwise_le {h : List Seg} (hs : List.Pairwise keyLt h) :
    List.Pairwise keyLe h :=
  hs.imp (fun hab => le_of_lt hab)

theorem bsGo_spec {h : List Seg} {needle : Int} (hs : List.Pairwise keyLe h) :
    ∀ (fuel : Nat) (low high : Int),
      0 ≤ low → high < (h.length : Int) → low ≤ high + 1 →
      (high + 1 - low).toNat ≤ fuel →
      (∀ i : Int, 0 ≤ i → i < low → colAt h i < needle) →
      (∀ i : Int, high < i → i < (h.length : Int) → needle < colAt h i) →
      ((bsGo h needle fuel low high).2 = true ∧
        0 ≤ (bsGo h needle fuel low high).1 ∧
        (bsGo h needle fuel low high).1 < (h.length : Int) ∧
        colAt h (bsGo h needle fuel low high).1 = needle) ∨
      ((bsGo h needle fuel low high).2 = false ∧
        -1 ≤ (bsGo h needle fuel low high).1 ∧
        (bsGo h needle fuel low high).1 < (h.length : Int) ∧
        (∀ i : Int, 0 ≤ i → i ≤ (bsGo h needle fuel low high).1 → colAt h i < needle) ∧
        (∀ i : Int, (bsGo h needle fuel low high).1 < i → i < (h.length : Int) →
          needle < colAt h i)) := by
  intro fuel
  induction fuel with
  | zero =>
    intro low high h0 hhi hlohi hfuel hleft hright
    simp only [bsGo]
    right
    refine ⟨by trivial, by omega, by omega, ?_, ?_⟩
    · intro i hi0 hir
      exact hleft i hi0 (by omega)
    · intro i hir hin
      exact hright i (by omega) hin
  | succ fuel ih =>
    intro low high h0 hhi hlohi hfuel hleft hright
    by_cases hlh : low ≤ high
    case neg =>
      simp only [bsGo, if_neg hlh]
      right
      refine ⟨by trivial, by omega, by omega, ?_, ?_⟩
      · intro i hi0 hir
        exact hleft i hi0 (by omega)
      · intro i hir hin
        exact hright i (by omega) hin
    case pos =>
      simp only [bsGo, if_pos hlh]
      set mid := low + (high - low) / 2 with hmid
      have hmlow : low ≤ mid := by omega
      have hmhigh : mid ≤ high := by omega
      by_cases hc0 : colAt h mid - needle = 0
      · rw [if_pos hc0]
        exact Or.inl ⟨rfl, show (0 : Int) ≤ mid by omega,
          show mid < (h.length : Int) by omega, show colAt h mid = needle by omega⟩
      · rw [if_neg hc0]
        by_cases hclt : colAt h mid - needle < 0
        · rw [if_pos hclt]
          refine ih (mid + 1) high (by omega) hhi (by omega) (by omega) ?_ hright
          intro i hi0 hilow
          rcases lt_or_le i low with hl | hl
          · exact hleft i hi0 hl
          · have : colAt h i ≤ colAt h mid := colAt_mono hs hi0 (by omega) (by omega)
            omega
        · rw [if_neg hclt]
          refine ih low (mid - 1) h0 (by omega) (by omega) (by omega) hleft ?_
          intro i hiu hin
          have : colAt h mid ≤ colAt h i := colAt_mono hs (by omega) (by omega) hin
          omega

theorem binarySearchF_spec {h : List Seg} (needle low high : Int) (hs : List.Pairwise keyLe h)
    (h0 : 0 ≤ low) (hhi : high < (h.length : Int)) (hlohi : low ≤ high + 1)
    (hleft : ∀ i : Int, 0 ≤ i → i < low → colAt h i < needle)
    (hright : ∀ i : Int, high < i → i < (h.length : Int) → needle < colAt h i) :
    ((binarySearchF h needle low high).2 = true ∧
      0 ≤ (binarySearchF h needle low high).1 ∧
      (binarySearchF h needle low high).1 < (h.length : Int) ∧
      colAt h (binarySearchF h needle low high).1 = needle) ∨
    ((binarySearchF h needle low high).2 = false ∧
      -1 ≤ (binarySearchF h needle low high).1 ∧
      (binarySearchF h needle low high).1 < (h.length : Int) ∧
      (∀ i : Int, 0 ≤ i → i ≤ (binarySearchF h needle low high).1 → colAt h i < needle) ∧
      (∀ i : Int, (binarySearchF h needle low high).1 < i → i < (h.length : Int) →
        needle < colAt h i)) :=
  bsGo_spec hs (h.length + 1) low high h0 hhi hlohi (by omega) hleft hright

theorem GlbP_unique {h : List Seg} {needle r1 r2 : Int}
    (h1 : GlbP h needle r1) (h2 : GlbP h needle r2) : r1 = r2 := by
  obtain ⟨a1, b1, c1, d1⟩ := h1
  obtain ⟨a2, b2, c2, d2⟩ := h2
  by_contra hne
  rcases lt_or_gt_of_ne hne with hlt | hlt
  · have hc := c2 r2 (by omega) (le_refl _)
    have hd := d1 r2 hlt b2
    omega
  · have hc := c1 r1 (by omega) (le_refl _)
    have hd := d2 r1 hlt b1
    omega

/-- A windowed search over a strictly sorted row whose excluded indices
are strictly on the correct side of the needle computes the unique
greatest-lower-bound index. -/
theorem binarySearchF_window_glb {h : List Seg} (needle low high : Int)
    (hst : List.Pairwise keyLt h)
    (h0 : 0 ≤ low) (hhi : high < (h.length : Int)) (hlohi : low ≤ high + 1)
    (hleft : ∀ i : Int, 0 ≤ i → i < low → colAt h i < needle)
    (hright : ∀ i : Int, high < i → i < (h.length : Int) → needle < colAt h i) :
    GlbP h needle (binarySearchF h needle low high).1 := by
  have hs := keyLt_pairwise_le hst
  rcases binarySearchF_spec needle low high hs h0 hhi hlohi hleft hright with
    ⟨_, hr0, hrn, hcol⟩ | ⟨_, hr0, hrn, hlo, hhi2⟩
  · refine ⟨by omega, hrn, ?_, ?_⟩
    · intro i hi0 hir
      calc colAt h i ≤ colAt h (binarySearchF h needle low high).1 :=
            colAt_mono hs hi0 hir hrn
        _ = needle := hcol
    · intro i hir hin
      calc needle = colAt h (binarySearchF h needle low high).1 := hcol.symm
        _ < colAt h i := colAt_strict_mono hst hr0 hir hin
  · exact ⟨hr0, hrn, fun i hi0 hir => le_of_lt (hlo i hi0 hir), hhi2⟩

/-- The cold full-range search computes the greatest lower bound on a
strictly sorted row. -/
theorem binarySearch_cold_glb {h : List Seg} (needle : Int)
    (hst : List.Pairwise keyLt h) :
    GlbP h needle (binarySearch h needle 0 ((h.length : Int) - 1)) :=
  binarySearchF_window_glb needle 0 ((h.length : Int) - 1) hst (by omega) (by omega) (by omega)
    (fun i _ hi => absurd hi (by omega)) (fun i hi hin => absurd hin (by omega))

theorem memo_step {h : List Seg} {key : Int} (hst : List.Pairwise keyLt h)
    (hkey : 0 ≤ key) (s : MemoState) (hinv : MemoInv h key s) (q : Int) :
    (memoizedBinarySearch h q s key).1 = binarySearch h q 0 ((h.length : Int) - 1) ∧
    MemoInv h key (memoizedBinarySearch h q s key).2 := by
  have hcold := binarySearch_cold_glb q hst
  by_cases hit : key = s.lastKey ∧ q = s.lastNeedle
  · have hs_ne : s ≠ memoizedState := by
      intro he
      rw [he] at hit
      simp only [memoizedState] at hit
      omega
    rcases hinv with he | ⟨_, hglb⟩
    · exact absurd he hs_ne
    · rw [hit.2] at hcold
      have := GlbP_unique hglb hcold
      simp only [memoizedBinarySearch, if_pos hit]
      constructor
      · rw [hit.2]
        exact this
      · exact Or.inr ⟨hit.1.symm, hglb⟩
  · simp only [memoizedBinarySearch, if_neg hit]
    have hmain : GlbP h q
        (binarySearch h q
          (if key = s.lastKey ∧ s.lastNeedle ≤ q then max s.lastIndex 0 else 0)
          (if key = s.lastKey ∧ q < s.lastNeedle then s.lastIndex
           else (h.length : Int) - 1)) := by
      by_cases hkeyeq : key = s.lastKey
      · have hs_ne : s ≠ memoizedState := by
          intro he
          rw [he] at hkeyeq
          simp only [memoizedState] at hkeyeq
          omega
        rcases hinv with he | ⟨_, hglb⟩
        · exact absurd he hs_ne
        · obtain ⟨hg1, hg2, hg3, hg4⟩ := hglb
          by_cases hq : s.lastNeedle ≤ q
          · have hqlt : s.lastNeedle < q := by
              rcases lt_or_eq_of_le hq with hlt | heq
              · exact hlt
              · exact absurd ⟨hkeyeq, heq.symm⟩ hit
            rw [if_pos ⟨hkeyeq, hq⟩, if_neg (by omega)]
            apply binarySearchF_window_glb q (max s.lastIndex 0) ((h.length : Int) - 1) hst
              (by omega) (by omega) (by omega)
            · intro i hi0 hilow
              have hile : i ≤ s.lastIndex := by omega
              have := hg3 i hi0 hile
              omega
            · intro i hi hin
              exact absurd hin (by omega)
          · rw [if_neg (by tauto), if_pos ⟨hkeyeq, by omega⟩]
            apply binarySearchF_window_glb q 0 s.lastIndex hst (by omega) (by omega) (by omega)
            · intro i hi0 hilow
              exact absurd hilow (by omega)
            · intro i hi hin
              have := hg4 i hi hin
              omega
      · rw [if_neg (by tauto), if_neg (by tauto)]
        exact hcold
    constructor
    · exact GlbP_unique hmain hcold
    · exact Or.inr ⟨rfl, hmain⟩

/-! ### C3: memoization transparency -/

/-- C3 counterexample: on the row with generated columns
`[3, 5, 7, 7, 7, 7]` (sorted non-decreasing) and queries 5 then 7 under
one memo key, the memoized search returns index 3 for the second query
while a cold full-range `binarySearch` over the whole row returns
index 2 — a different index (both hold column 7). -/
theorem memo_transparency_counterexample :
    (memoizedBinarySearch [[3], [5], [7], [7], [7], [7]] 7
      (memoizedBinarySearch [[3], [5], [7], [7], [7], [7]] 5 memoizedState 0).2 0).1 = 3 ∧
    binarySearch [[3], [5], [7], [7], [7], [7]] 7 0 5 = 2 ∧
    (3 : Int) ≠ 2 := by
  refine ⟨by decide, by decide, by decide⟩

/-- C3 amended: on a row whose generated columns are strictly
increasing (no duplicate columns) and for a non-negative memo key,
every query of any sequence through `memoizedBinarySearch` returns
exactly the index a cold full-range `binarySearch` over the whole row
would return; with duplicate columns the memoized search may return a
different index holding the same column. -/
theorem memo_transparency_amended (h : List Seg) (key : Int) (qs : List Int)
    (hst : List.Pairwise keyLt h) (hkey : 0 ≤ key) :
    runQueries h key memoizedState qs
      = qs.map (fun q => binarySearch h q 0 ((h.length : Int) - 1)) := by
  have main : ∀ (qs : List Int) (s : MemoState), MemoInv h key s →
      runQueries h key s qs
        = qs.map (fun q => binarySearch h q 0 ((h.length : Int) - 1)) := by
    intro qs
    induction qs with
    | nil => intro s _; rfl
    | cons q rest ih =>
      intro s hinv
      obtain ⟨hval, hinv'⟩ := memo_step hst hkey s hinv q
      simp only [runQueries, List.map_cons, hval, ih _ hinv']
  exact main qs memoizedState (Or.inl rfl)

/-- Witness for `memo_transparency_amended` on a strictly increasing
row and two queries. -/
theorem memo_transparency_amended_witness :
    (List.Pairwise keyLt [[1], [3]] ∧ (0 : Int) ≤ 0) ∧
    runQueries [[1], [3]] 0 memoizedState [2, 3]
      = [2, 3].map (fun q => binarySearch [[1], [3]] q 0 (([[1], [3]].length : Int) - 1)) :=
  ⟨⟨by decide, by decide⟩,
   memo_transparency_amended [[1], [3]] 0 [2, 3] (by decide) (by decide)⟩

/-! ### C4: bias semantics of the trace search -/

theorem colAt_natCast (h : List Seg) (j : Nat) : colAt h (j : Int) = colN h j := by
  simp [colAt, colN]

theorem mbsF_cold (h : List Seg) (q line : Int) (hline : 0 ≤ line) :
    memoizedBinarySearchF h q memoizedState line
      = ((binarySearchF h q 0 ((h.length : Int) - 1)).1,
         (binarySearchF h q 0 ((h.length : Int) - 1)).2,
         ⟨line, q, (binarySearchF h q 0 ((h.length : Int) - 1)).1⟩) := by
  have hne : ¬ (line = memoizedState.lastKey ∧ q = memoizedState.lastNeedle) := by
    simp only [memoizedState]
    omega
  have h1 : ¬ (line = memoizedState.lastKey ∧ memoizedState.lastNeedle ≤ q) := by
    simp only [memoizedState]
    omega
  have h2 : ¬ (line = memoizedState.lastKey ∧ q < memoizedState.lastNeedle) := by
    simp only [memoizedState]
    omega
  simp only [memoizedBinarySearchF, if_neg hne, if_neg h1, if_neg h2]

theorem lowerBoundN_spec {h : List Seg} {needle : Int} (hs : List.Pairwise keyLe h) :
    ∀ i : Nat, i < h.length → colN h i = needle →
      lowerBoundN h needle i ≤ i ∧ colN h (lowerBoundN h needle i) = needle ∧
      ∀ k : Nat, k < lowerBoundN h needle i → colN h k < needle := by
  intro i
  induction i with
  | zero =>
    intro _ hcol
    simp only [lowerBoundN]
    exact ⟨le_refl _, hcol, by omega⟩
  | succ i ih =>
    intro hlen hcol
    simp only [lowerBoundN]
    by_cases hci : (h.getD i []).getD 0 0 = needle
    · rw [if_pos hci]
      obtain ⟨ha, hb, hc⟩ := ih (by omega) hci
      exact ⟨by omega, hb, hc⟩
    · rw [if_neg hci]
      refine ⟨le_refl _, hcol, ?_⟩
      intro k hk
      have h1 : colN h k ≤ colN h i := sorted_colN_mono hs k i (by omega) (by omega)
      have h2 : colN h i ≤ colN h (i + 1) := sorted_colN_mono hs i (i + 1) (by omega) hlen
      rw [hcol] at h2
      have : colN h i ≠ needle := hci
      omega

theorem upperBoundGo_spec {h : List Seg} {needle : Int} (hs : List.Pairwise keyLe h) :
    ∀ (fuel i : Nat), h.length ≤ fuel + i → i < h.length → colN h i = needle →
      i ≤ upperBoundGo h needle fuel i ∧ upperBoundGo h needle fuel i < h.length ∧
      colN h (upperBoundGo h needle fuel i) = needle ∧
      ∀ k : Nat, upperBoundGo h needle fuel i < k → k < h.length →
        needle < colN h k := by
  intro fuel
  induction fuel with
  | zero =>
    intro i hf hi _
    omega
  | succ fuel ih =>
    intro i hf hi hcol
    simp only [upperBoundGo]
    by_cases hc : i + 1 < h.length ∧ (h.getD (i + 1) []).getD 0 0 = needle
    · rw [if_pos hc]
      obtain ⟨ha, hb, hc2, hd⟩ := ih (i + 1) (by omega) hc.1 hc.2
      exact ⟨by omega, hb, hc2, hd⟩
    · rw [if_neg hc]
      refine ⟨le_refl _, hi, hcol, ?_⟩
      intro k hik hk
      have hlt : i + 1 < h.length := by omega
      have hne : colN h (i + 1) ≠ needle := by
        intro he
        exact hc ⟨hlt, he⟩
      have hmono : colN h i ≤ colN h (i + 1) :=
        sorted_colN_mono hs i (i + 1) (by omega) hlt
      rw [hcol] at hmono
      have hgt : needle < colN h (i + 1) := by omega
      calc needle < colN h (i + 1) := hgt
        _ ≤ colN h k := sorted_colN_mono hs (i + 1) k (by omega) hk

theorem upperBound_spec {h : List Seg} {needle : Int} (hs : List.Pairwise keyLe h)
    (i : Nat) (hi : i < h.length) (hcol : colN h i = needle) :
    i ≤ upperBound h needle i ∧ upperBound h needle i < h.length ∧
    colN h (upperBound h needle i) = needle ∧
    ∀ k : Nat, upperBound h needle i < k → k < h.length → needle < colN h k :=
  upperBoundGo_spec hs h.length i (by omega) hi hcol

/-- C4 counterexample: on the row `[[5], [5]]` (sorted non-decreasing,
duplicate generated column 5) with needle 5, the cold
`GREATEST_LOWER_BOUND` lookup returns index 0, yet index 1 also
satisfies `genCol ≤ needle` and exceeds 0 — so the lookup does not
return the greatest index whose generated column is at most the
needle. -/
theorem bias_semantics_counterexample :
    (traceSegmentInternal [[5], [5]] memoizedState 0 5 GREATEST_LOWER_BOUND).1 = 0 ∧
    colAt [[5], [5]] 1 ≤ 5 ∧ ((0 : Int) < 1 ∧ 1 < ([[5], [5]] : List Seg).length) := by
  refine ⟨by decide, by decide, by decide, by decide⟩

/-- C4 amended: over a sorted row, from a cold memo and a non-negative
line key, the bias-directed lookup returns: under
`GREATEST_LOWER_BOUND`, the least index matching the needle exactly
when a match exists, and otherwise the greatest index whose column is
below the needle (-1 when the needle precedes every column); under
`LEAST_UPPER_BOUND`, the greatest matching index when a match exists,
and otherwise the least index whose column is beyond the needle (-1
when every column is below the needle). -/
theorem bias_semantics_amended (segments : List Seg) (line needle : Int)
    (hs : List.Pairwise keyLe segments) (hline : 0 ≤ line) :
    ((∃ i : Int, 0 ≤ i ∧ i < (segments.length : Int) ∧ colAt segments i = needle) →
      GlbMatchRes segments needle
        (traceSegmentInternal segments memoizedState line needle GREATEST_LOWER_BOUND).1 ∧
      LubMatchRes segments needle
        (traceSegmentInternal segments memoizedState line needle LEAST_UPPER_BOUND).1) ∧
    ((∀ i : Int, 0 ≤ i → i < (segments.length : Int) → colAt segments i ≠ needle) →
      GlbMissRes segments needle
        (traceSegmentInternal segments memoizedState line needle GREATEST_LOWER_BOUND).1 ∧
      LubMissRes segments needle
        (traceSegmentInternal segments memoizedState line needle LEAST_UPPER_BOUND).1) := by
  have hcold := binarySearchF_spec needle 0 ((segments.length : Int) - 1) hs
    (by omega) (by omega) (by omega)
    (fun i _ hi => absurd hi (by omega)) (fun i hi hin => absurd hin (by omega))
  set b := binarySearchF segments needle 0 ((segments.length : Int) - 1) with hb
  have hunf : ∀ bias : Int,
      traceSegmentInternal segments memoizedState line needle bias
        = (let index := if b.2 then
              (if bias = LEAST_UPPER_BOUND then (upperBound segments needle b.1.toNat : Int)
               else (lowerBoundN segments needle b.1.toNat : Int))
            else if bias = LEAST_UPPER_BOUND then b.1 + 1 else b.1
           if index = -1 ∨ index = segments.length then (-1, ⟨line, needle, b.1⟩)
           else (index, ⟨line, needle, b.1⟩)) := by
    intro bias
    simp only [traceSegmentInternal, mbsF_cold segments needle line hline]
  rcases hcold with ⟨hf, hr0, hrn, hcol⟩ | ⟨hf, hr0, hrn, hlo, hhi⟩
  · -- exact match found by the raw search
    constructor
    · intro _
      constructor
      · -- greatest lower bound widens down with lowerBound
        rw [hunf GREATEST_LOWER_BOUND]
        simp only [hf, if_true, GREATEST_LOWER_BOUND, LEAST_UPPER_BOUND]
        norm_num
        have hcolN : colN segments b.1.toNat = needle := by
          rw [← colAt_natCast]
          have : ((b.1.toNat : Int)) = b.1 := by omega
          rw [this]
          exact hcol
        obtain ⟨hl1, hl2, hl3⟩ := lowerBoundN_spec hs b.1.toNat (by omega) hcolN
        set j := lowerBoundN segments needle b.1.toNat with hj
        have hjlen : j < segments.length := by omega
        have hcond : ¬ ((j : Int) = -1 ∨ j = segments.length) := by omega
        rw [if_neg hcond]
        refine ⟨by omega, by omega, ?_, ?_⟩
        · rw [colAt_natCast]
          exact hl2
        · intro i hi0 hin hieq
          by_contra hcon
          have hik : i.toNat < j := by omega
          have := hl3 i.toNat hik
          rw [← colAt_natCast] at this
          have hcast : ((i.toNat : Int)) = i := by omega
          rw [hcast] at this
          omega
      · -- least upper bound widens up with upperBound
        rw [hunf LEAST_UPPER_BOUND]
        simp only [hf, if_true, LEAST_UPPER_BOUND]
        norm_num
        have hcolN : colN segments b.1.toNat = needle := by
          rw [← colAt_natCast]
          have : ((b.1.toNat : Int)) = b.1 := by omega
          rw [this]
          exact hcol
        obtain ⟨hu1, hu2, hu3, hu4⟩ := upperBound_spec hs b.1.toNat (by omega) hcolN
        set j := upperBound segments needle b.1.toNat with hj
        have hcond : ¬ ((j : Int) = -1 ∨ j = segments.length) := by omega
        rw [if_neg hcond]
        refine ⟨by omega, by omega, ?_, ?_⟩
        · rw [colAt_natCast]
          exact hu3
        · intro i hi0 hin hieq
          by_contra hcon
          have hik : j < i.toNat := by omega
          have := hu4 i.toNat hik (by omega)
          rw [← colAt_natCast] at this
          have hcast : ((i.toNat : Int)) = i := by omega
          rw [hcast] at this
          omega
    · intro hnone
      exact absurd hcol (hnone b.1 hr0 hrn)
  · -- no exact match
    constructor
    · intro ⟨i, hi0, hin, hieq⟩
      rcases le_or_lt i b.1 with hle | hgt
      · have := hlo i hi0 hle
        omega
      · have := hhi i hgt hin
        omega
    · intro _
      constructor
      · -- greatest lower bound keeps the raw index
        rw [hunf GREATEST_LOWER_BOUND]
        simp only [hf, GREATEST_LOWER_BOUND, LEAST_UPPER_BOUND]
        norm_num
        by_cases hneg : b.1 = -1
        · have hcond : ((b.1 : Int) = -1 ∨ (b.1 : Int) = segments.length) := Or.inl hneg
          rw [if_pos hcond]
          left
          refine ⟨rfl, ?_⟩
          intro i hi0 hin
          exact hhi i (by omega) hin
        · have hcond : ¬ ((b.1 : Int) = -1 ∨ (b.1 : Int) = segments.length) := by omega
          rw [if_neg hcond]
          right
          exact ⟨by omega, by omega, hlo b.1 (by omega) (le_refl _), hhi⟩
      · -- least upper bound increments the raw index
        rw [hunf LEAST_UPPER_BOUND]
        simp only [hf, LEAST_UPPER_BOUND]
        norm_num
        by_cases hend : b.1 + 1 = (segments.length : Int)
        · have hcond : (b.1 + 1 = -1 ∨ b.1 + 1 = (segments.length : Int)) := Or.inr hend
          rw [if_pos hcond]
          left
          refine ⟨rfl, ?_⟩
          intro i hi0 hin
          exact hlo i hi0 (by omega)
        · have hcond : ¬ (b.1 + 1 = -1 ∨ b.1 + 1 = (segments.length : Int)) := by omega
          rw [if_neg hcond]
          right
          refine ⟨by omega, by omega, hhi (b.1 + 1) (by omega) (by omega), ?_⟩
          intro i hi0 hir
          exact hlo i hi0 (by omega)

/-- Witness for `bias_semantics_amended` on the row `[[1], [3]]` with
needle 2 at line 0. -/
theorem bias_semantics_amended_witness :
    (List.Pairwise keyLe ([[1], [3]] : List Seg) ∧ (0 : Int) ≤ 0) ∧
    ((∀ i : Int, 0 ≤ i → i < (([[1], [3]] : List Seg).length : Int) →
        colAt [[1], [3]] i ≠ 2) →
      GlbMissRes [[1], [3]] 2
        (traceSegmentInternal [[1], [3]] memoizedState 0 2 GREATEST_LOWER_BOUND).1 ∧
      LubMissRes [[1], [3]] 2
        (traceSegmentInternal [[1], [3]] memoizedState 0 2 LEAST_UPPER_BOUND).1) :=
  ⟨⟨by decide, by decide⟩,
   (bias_semantics_amended [[1], [3]] 0 2 (by decide) (by decide)).2⟩

/-! ### C7: coordinate errors are exactly the invalid needles -/

/-- C7: `originalPositionFor` and `generatedPositionFor` throw exactly
when the needle has `line < 1` or `column < 0`; every other needle
returns normally with either a position record or the all-null record,
including when the line exceeds the number of rows (shown explicitly),
when the column precedes every mapping, and when the matched segment
has arity 1 (both covered by normal return). -/
theorem coordinate_errors (map : TraceMapM) (line column bias : Int) (source : String) :
    (isOkE (originalPositionFor map memoizedState line column bias) = false ↔
      line < 1 ∨ column < 0) ∧
    (isOkE (generatedPositionFor map memoizedState source line column bias) = false ↔
      line < 1 ∨ column < 0) ∧
    (1 ≤ line → 0 ≤ column → (map.decoded.length : Int) ≤ line - 1 →
      originalPositionFor map memoizedState line column bias = .ok OPos.null) := by
  refine ⟨?_, ?_, ?_⟩
  · by_cases h1 : line - 1 < 0
    · simp only [originalPositionFor, if_pos h1, isOkE]
      constructor
      · intro _
        left
        omega
      · intro _
        trivial
    · by_cases h2 : column < 0
      · simp only [originalPositionFor, if_neg h1, if_pos h2, isOkE]
        constructor
        · intro _
          right
          exact h2
        · intro _
          trivial
      · have hok : isOkE (originalPositionFor map memoizedState line column bias) = true := by
          simp only [originalPositionFor, if_neg h1, if_neg h2]
          repeat' split <;> try rfl
        rw [hok]
        constructor
        · intro hcon
          exact absurd hcon (by simp)
        · intro hcon
          omega
  · by_cases h1 : line - 1 < 0
    · simp only [generatedPositionFor, if_pos h1, isOkE]
      constructor
      · intro _
        left
        omega
      · intro _
        trivial
    · by_cases h2 : column < 0
      · simp only [generatedPositionFor, if_neg h1, if_pos h2, isOkE]
        constructor
        · intro _
          right
          exact h2
        · intro _
          trivial
      · have hok : isOkE (generatedPositionFor map memoizedState source line column bias)
            = true := by
          simp only [generatedPositionFor, if_neg h1, if_neg h2]
          repeat' split <;> try rfl
        rw [hok]
        constructor
        · intro hcon
          exact absurd hcon (by simp)
        · intro hcon
          omega
  · intro ha hb hc
    simp only [originalPositionFor, if_neg (show ¬ (line - 1 < 0) by omega),
      if_neg (show ¬ (column < 0) by omega), if_pos hc]

/-- Witness for `coordinate_errors`: the line-out-of-range conjunct at
a concrete one-row map and needle line 2. -/
theorem coordinate_errors_witness :
    (1 ≤ (2 : Int) ∧ 0 ≤ (0 : Int) ∧
      (((⟨[], [], [], [[[0]]]⟩ : TraceMapM).decoded.length : Int) ≤ 2 - 1) ∧
    originalPositionFor ⟨[], [], [], [[[0]]]⟩ memoizedState 2 0 0 = .ok OPos.null) :=
  ⟨by decide, by decide, by decide,
   (coordinate_errors ⟨[], [], [], [[[0]]]⟩ 2 0 0 "x").2.2 (by decide) (by decide) (by decide)⟩

/-! ### Unique ordered table lemmas -/

theorem getD_get {α : Type} (l : List α) (d : α) {j : Nat} (hj : j < l.length) :
    l.getD j d = l.get ⟨j, hj⟩ := by
  simp [List.getD_eq_getElem?_getD, List.getElem?_eq_getElem hj, List.get_eq_getElem]

theorem FsaLe_refl (f : FSA) : FsaLe f f :=
  ⟨le_refl _, fun _ _ => rfl⟩

theorem FsaLe_trans {f g k : FSA} (h1 : FsaLe f g) (h2 : FsaLe g k) : FsaLe f k :=
  ⟨le_trans h1.1 h2.1, fun j hj => by rw [h2.2 j (lt_of_lt_of_le hj h1.1), h1.2 j hj]⟩

theorem put_fsaLe (f : FSA) (k : String) : FsaLe f (put f k).2 := by
  simp only [put]
  by_cases hmem : k ∈ f.array
  · rw [if_pos hmem]
    exact FsaLe_refl f
  · rw [if_neg hmem]
    refine ⟨by simp, ?_⟩
    intro j hj
    show (f.array ++ [k]).getD j "" = f.array.getD j ""
    rw [getD_get _ _ (show j < (f.array ++ [k]).length by simp [Nat.lt_add_right 1 hj]),
      getD_get _ _ hj]
    simp [List.get_eq_getElem, List.getElem_append_left, hj]

theorem put_names_ok {f : FSA} (hf : NamesOk f) {k : String} (hk : k ≠ "") :
    NamesOk (put f k).2 := by
  simp only [put]
  by_cases hmem : k ∈ f.array
  · rw [if_pos hmem]
    exact hf
  · rw [if_neg hmem]
    intro nm hnm
    rcases List.mem_append.mp hnm with h | h
    · exact hf nm h
    · rw [List.mem_singleton] at h
      rw [h]
      exact hk

theorem put_idx_lt (f : FSA) (k : String) : (put f k).1 < (put f k).2.array.length := by
  simp only [put]
  by_cases hmem : k ∈ f.array
  · rw [if_pos hmem]
    exact List.indexOf_lt_length.mpr hmem
  · rw [if_neg hmem]
    simp

theorem put_getD (f : FSA) (k : String) :
    (put f k).2.array.getD (put f k).1 "" = k := by
  simp only [put]
  by_cases hmem : k ∈ f.array
  · rw [if_pos hmem]
    have hlt := List.indexOf_lt_length.mpr hmem
    show f.array.getD (f.array.indexOf k) "" = k
    rw [getD_get _ _ hlt]
    exact List.indexOf_get hlt
  · rw [if_neg hmem]
    show (f.array ++ [k]).getD f.array.length "" = k
    simp [List.getD_eq_getElem?_getD, List.getElem?_concat_length]

theorem idx_ok_mono {f g : FSA} (hle : FsaLe f g) {j : Nat} (hj : j < f.array.length)
    (hne : f.array.getD j "" ≠ "") :
    j < g.array.length ∧ g.array.getD j "" ≠ "" := by
  obtain ⟨h1, h2⟩ := hle
  exact ⟨by omega, by rw [h2 j hj]; exact hne⟩

/-! ### Segment loop invariants of the remapper -/

theorem traceOneSeg_spec (fuel : Nat) (m : DecMapT) (srcs : List Graph) (acc : TraceAcc)
    (seg : Seg) (out : Option Seg × TraceAcc)
    (hok : traceOneSeg fuel m srcs acc seg = .ok out) (hnames : NamesOk acc.names) :
    NamesOk out.2.names ∧ FsaLe acc.names out.2.names ∧
    ∀ s ∈ out.1.toList,
      (s.length = 4 ∨ s.length = 5) ∧ s.getD 0 0 = seg.getD 0 0 ∧
      (s.length = 5 → ∃ j : Nat, s.getD 4 0 = (j : Int) ∧ j < out.2.names.array.length ∧
        out.2.names.array.getD j "" ≠ "") := by
  simp only [traceOneSeg] at hok
  by_cases h1 : seg.length = 1
  · rw [if_pos h1] at hok
    simp only [Except.ok.injEq] at hok
    rw [← hok]
    exact ⟨hnames, FsaLe_refl _, by simp⟩
  · rw [if_neg h1] at hok
    rcases hsrc : srcs.get? (seg.getD 1 0).toNat with _ | source
    · rw [hsrc] at hok
      simp at hok
    · simp only [hsrc] at hok
      rcases htr : traceSegmentG fuel source (seg.getD 2 0) (seg.getD 3 0)
          (if seg.length = 5 then m.names.getD (seg.getD 4 0).toNat "" else "") with e | ot
      · simp only [htr] at hok
        simp at hok
      · rcases ot with _ | traced
        · simp only [htr, Except.ok.injEq] at hok
          rw [← hok]
          exact ⟨hnames, FsaLe_refl _, by simp⟩
        · simp only [htr] at hok
          split at hok
          · rename_i hname
            simp only [Except.ok.injEq] at hok
            rw [← hok]
            refine ⟨put_names_ok hnames hname, put_fsaLe _ _, ?_⟩
            intro s hs
            simp only [Option.toList_some, List.mem_singleton] at hs
            rw [hs]
            refine ⟨Or.inr rfl, rfl, ?_⟩
            intro _
            exact ⟨(put acc.names traced.name).1, rfl, put_idx_lt _ _,
              by rw [put_getD]; exact hname⟩
          · rename_i hname
            simp only [Except.ok.injEq] at hok
            rw [← hok]
            refine ⟨hnames, FsaLe_refl _, ?_⟩
            intro s hs
            simp only [Option.toList_some, List.mem_singleton] at hs
            rw [hs]
            refine ⟨Or.inl rfl, rfl, ?_⟩
            intro hlen
            simp at hlen

theorem traceRow_spec (fuel : Nat) (m : DecMapT) (srcs : List Graph) :
    ∀ (segs : List Seg) (acc : TraceAcc) (out : List Seg × TraceAcc),
      traceRow fuel m srcs acc segs = .ok out → NamesOk acc.names →
      NamesOk out.2.names ∧ FsaLe acc.names out.2.names ∧
      (∀ s ∈ out.1, (s.length = 4 ∨ s.length = 5) ∧
        (s.length = 5 → ∃ j : Nat, s.getD 4 0 = (j : Int) ∧ j < out.2.names.array.length ∧
          out.2.names.array.getD j "" ≠ "")) ∧
      (out.1.map (fun s => s.getD 0 0)).Sublist (segs.map (fun s => s.getD 0 0)) := by
  intro segs
  induction segs with
  | nil =>
    intro acc out hok hnames
    simp only [traceRow, Except.ok.injEq] at hok
    rw [← hok]
    exact ⟨hnames, FsaLe_refl _, by simp, by simp⟩
  | cons seg rest ih =>
    intro acc out hok hnames
    simp only [traceRow] at hok
    rcases h1 : traceOneSeg fuel m srcs acc seg with e | ⟨emitted, acc1⟩
    · simp only [h1] at hok
      simp at hok
    · simp only [h1] at hok
      obtain ⟨hn1, hle1, hseg1⟩ := traceOneSeg_spec fuel m srcs acc seg (emitted, acc1) h1 hnames
      rcases h2 : traceRow fuel m srcs acc1 rest with e | ⟨segs2, acc2⟩
      · simp only [h2] at hok
        simp at hok
      · simp only [h2] at hok
        obtain ⟨hn2, hle2, hsegs2, hsub2⟩ := ih acc1 (segs2, acc2) h2 hn1
        simp only [Except.ok.injEq] at hok
        rw [← hok]
        refine ⟨hn2, FsaLe_trans hle1 hle2, ?_, ?_⟩
        · intro s hs
          rw [List.mem_append] at hs
          rcases hs with hs | hs
          · obtain ⟨ha, hh, hb⟩ := hseg1 s hs
            refine ⟨ha, ?_⟩
            intro h5
            obtain ⟨j, hj1, hj2, hj3⟩ := hb h5
            obtain ⟨hj2', hj3'⟩ := idx_ok_mono hle2 hj2 hj3
            exact ⟨j, hj1, hj2', hj3'⟩
          · exact hsegs2 s hs
        · rcases emitted with _ | s
          · simp only [Option.toList_none, List.nil_append]
            exact hsub2.cons _
          · have hh : s.getD 0 0 = seg.getD 0 0 :=
              (hseg1 s (by simp)).2.1
            simp only [Option.toList_some, List.singleton_append, List.map_cons, hh]
            exact hsub2.cons₂ _

theorem traceRows_spec (fuel : Nat) (m : DecMapT) (srcs : List Graph) :
    ∀ (rows : List (List Seg)) (acc : TraceAcc) (out : List (List Seg) × TraceAcc),
      traceRows fuel m srcs acc rows = .ok out → NamesOk acc.names →
      NamesOk out.2.names ∧ FsaLe acc.names out.2.names ∧
      out.1.length = rows.length ∧
      (∀ i : Nat, ((out.1.getD i []).map (fun s => s.getD 0 0)).Sublist
        ((rows.getD i []).map (fun s => s.getD 0 0))) ∧
      (∀ row ∈ out.1, ∀ s ∈ row, (s.length = 4 ∨ s.length = 5) ∧
        (s.length = 5 → ∃ j : Nat, s.getD 4 0 = (j : Int) ∧ j < out.2.names.array.length ∧
          out.2.names.array.getD j "" ≠ "")) := by
  intro rows
  induction rows with
  | nil =>
    intro acc out hok hnames
    simp only [traceRows, Except.ok.injEq] at hok
    rw [← hok]
    refine ⟨hnames, FsaLe_refl _, rfl, by simp, by simp⟩
  | cons row rest ih =>
    intro acc out hok hnames
    simp only [traceRows] at hok
    rcases h1 : traceRow fuel m srcs acc row with e | ⟨traced1, acc1⟩
    · simp only [h1] at hok
      simp at hok
    · simp only [h1] at hok
      obtain ⟨hn1, hle1, hsegs1, hsub1⟩ :=
        traceRow_spec fuel m srcs row acc (traced1, acc1) h1 hnames
      rcases h2 : traceRows fuel m srcs acc1 rest with e | ⟨rows2, acc2⟩
      · simp only [h2] at hok
        simp at hok
      · simp only [h2] at hok
        obtain ⟨hn2, hle2, hlen2, hsub2, hrows2⟩ := ih acc1 (rows2, acc2) h2 hn1
        simp only [Except.ok.injEq] at hok
        rw [← hok]
        refine ⟨hn2, FsaLe_trans hle1 hle2, by simp [hlen2], ?_, ?_⟩
        · intro i
          cases i with
          | zero => exact hsub1
          | succ i => exact hsub2 i
        · intro r hr
          rcases List.mem_cons.mp hr with hr | hr
          · intro s hs
            rw [hr] at hs
            obtain ⟨ha, hb⟩ := hsegs1 s hs
            refine ⟨ha, ?_⟩
            intro h5
            obtain ⟨j, hj1, hj2, hj3⟩ := hb h5
            obtain ⟨hj2', hj3'⟩ := idx_ok_mono hle2 hj2 hj3
            exact ⟨j, hj1, hj2', hj3'⟩
          · exact hrows2 r hr

/-! ### C6: name override and arity of emitted segments -/

/-- C6: when the node row segment hit by the column search carries a
name index (arity 5), the recursive trace is independent of the
incoming name and recurses into the child with the node's own names
entry — the child name replaces the incoming one — while a leaf
delivers the surviving name verbatim; the segment loop then emits a
five-field segment whose name index stores exactly the surviving name
when that name is non-empty, and a four-field segment (touching no
name) when it is empty, so an output segment has arity 5 exactly when
a non-empty name survived the trace; and in the composed output every
segment has arity 4 or 5, where arity 5 carries an index into the
output names table whose entry is a non-empty surviving name. -/
theorem name_override (fuel : Nat) (m : DecMapT) (srcs : List Graph) :
    (∀ (line column : Int) (n1 n2 : String) (segments : List Seg),
      rowAt m.mappings line = some segments →
      0 ≤ remapSearch segments column →
      (segments.getD (remapSearch segments column).toNat []).length = 5 →
      traceSegmentG (fuel + 1) (.node m srcs) line column n1
        = traceSegmentG (fuel + 1) (.node m srcs) line column n2) ∧
    (∀ (f : String) (c : Option String) (line column : Int) (name : String),
      traceSegmentG (fuel + 1) (.leaf f c) line column name
        = .ok (some ⟨line, column, name, f, c⟩)) ∧
    (∀ (line column : Int) (name : String) (segments : List Seg) (child : Graph),
      rowAt m.mappings line = some segments →
      0 ≤ remapSearch segments column →
      (segments.getD (remapSearch segments column).toNat []).length = 5 →
      srcs.get? ((segments.getD (remapSearch segments column).toNat []).getD 1 0).toNat
        = some child →
      traceSegmentG (fuel + 1) (.node m srcs) line column name
        = traceSegmentG fuel child
            ((segments.getD (remapSearch segments column).toNat []).getD 2 0)
            ((segments.getD (remapSearch segments column).toNat []).getD 3 0)
            (m.names.getD
              ((segments.getD (remapSearch segments column).toNat []).getD 4 0).toNat
              "")) ∧
    (∀ (acc : TraceAcc) (seg : Seg) (source : Graph) (traced : SegObj),
      ¬ seg.length = 1 →
      srcs.get? (seg.getD 1 0).toNat = some source →
      traceSegmentG fuel source (seg.getD 2 0) (seg.getD 3 0)
          (if seg.length = 5 then m.names.getD (seg.getD 4 0).toNat "" else "")
        = .ok (some traced) →
      (traced.name ≠ "" →
        traceOneSeg fuel m srcs acc seg
          = .ok (some [seg.getD 0 0, ((put acc.sources traced.filename).1 : Int),
                       traced.line, traced.column,
                       ((put acc.names traced.name).1 : Int)],
                 ⟨(put acc.names traced.name).2, (put acc.sources traced.filename).2,
                  setContent acc.sourcesContent (put acc.sources traced.filename).1
                    traced.content⟩) ∧
        (put acc.names traced.name).2.array.getD (put acc.names traced.name).1 ""
          = traced.name) ∧
      (traced.name = "" →
        traceOneSeg fuel m srcs acc seg
          = .ok (some [seg.getD 0 0, ((put acc.sources traced.filename).1 : Int),
                       traced.line, traced.column],
                 ⟨acc.names, (put acc.sources traced.filename).2,
                  setContent acc.sourcesContent (put acc.sources traced.filename).1
                    traced.content⟩))) ∧
    (∀ out : TracedMap, traceMappings fuel m srcs = .ok out →
      (∀ nm ∈ out.names, nm ≠ "") ∧
      ∀ row ∈ out.mappings, ∀ s ∈ row,
        (s.length = 4 ∨ s.length = 5) ∧
        (s.length = 5 → ∃ j : Nat, s.getD 4 0 = (j : Int) ∧ j < out.names.length ∧
          out.names.getD j "" ≠ "")) := by
  refine ⟨?_, ?_, ?_, ?_, ?_⟩
  · intro line column n1 n2 segments hrow hidx hlen
    have h1 : ¬ remapSearch segments column < 0 := by omega
    have h2 : ¬ (segments.getD (remapSearch segments column).toNat []).length = 1 := by
      omega
    simp only [traceSegmentG, hrow, if_neg h1, if_neg h2, if_pos hlen]
  · intro f c line column name
    rfl
  · intro line column name segments child hrow hidx hlen hsrc
    have h1 : ¬ remapSearch segments column < 0 := by omega
    have h2 : ¬ (segments.getD (remapSearch segments column).toNat []).length = 1 := by
      omega
    simp only [traceSegmentG, hrow, if_neg h1, if_neg h2, if_pos hlen, hsrc]
  · intro acc seg source traced h1 hsrc htr
    simp only [traceOneSeg, if_neg h1, hsrc, htr]
    constructor
    · intro hname
      rw [if_pos hname]
      exact ⟨rfl, put_getD acc.names traced.name⟩
    · intro hname
      rw [if_neg (not_not_intro hname)]
  · intro out hok
    simp only [traceMappings] at hok
    rcases h : traceRows fuel m srcs ⟨⟨[]⟩, ⟨[]⟩, []⟩ m.mappings with e | ⟨mappings, acc⟩
    · simp only [h] at hok
      simp at hok
    · simp only [h] at hok
      obtain ⟨hn, _, _, _, hrows⟩ := traceRows_spec fuel m srcs m.mappings ⟨⟨[]⟩, ⟨[]⟩, []⟩
        (mappings, acc) h (by intro nm hnm; simp at hnm)
      simp only [Except.ok.injEq] at hok
      rw [← hok]
      exact ⟨hn, hrows⟩

/-- Witness for the name-override conjunct of `name_override` at a
concrete two-level graph. -/
theorem name_override_witness :
    (rowAt ([[[0, 0, 0, 0, 0]]] : List (List Seg)) 0 = some [[0, 0, 0, 0, 0]] ∧
      0 ≤ remapSearch [[0, 0, 0, 0, 0]] 0 ∧
      (([[0, 0, 0, 0, 0]] : List Seg).getD (remapSearch [[0, 0, 0, 0, 0]] 0).toNat []).length
        = 5) ∧
    traceSegmentG 3 (.node ⟨[[[0, 0, 0, 0, 0]]], ["childName"]⟩ [.leaf "original.js" none])
        0 0 "alpha"
      = traceSegmentG 3 (.node ⟨[[[0, 0, 0, 0, 0]]], ["childName"]⟩ [.leaf "original.js" none])
        0 0 "beta" ∧
    traceSegmentG 3 (.leaf "original.js" none) 4 7 "keep"
      = .ok (some ⟨4, 7, "keep", "original.js", none⟩) ∧
    traceSegmentG 3 (.node ⟨[[[0, 0, 0, 0, 0]]], ["childName"]⟩ [.leaf "original.js" none])
        0 0 "alpha"
      = traceSegmentG 2 (.leaf "original.js" none) 0 0 "childName" ∧
    traceOneSeg 2 ⟨[[[1, 0, 0, 0, 0]]], ["rootName"]⟩
        [.node ⟨[[[0, 0, 0, 0, 0]]], ["childName"]⟩ [.leaf "original.js" (some "content")]]
        ⟨⟨[]⟩, ⟨[]⟩, []⟩ [1, 0, 0, 0, 0]
      = .ok (some [1, 0, 0, 0, 0],
             ⟨⟨["childName"]⟩, ⟨["original.js"]⟩, [some "content"]⟩) ∧
    (⟨["childName"]⟩ : FSA).array.getD 0 "" = "childName" :=
  ⟨⟨by decide, by decide, by decide⟩,
   (name_override 2 ⟨[[[0, 0, 0, 0, 0]]], ["childName"]⟩ [.leaf "original.js" none]).1
     0 0 "alpha" "beta" [[0, 0, 0, 0, 0]] (by decide) (by decide) (by decide),
   (name_override 2 ⟨[[[0, 0, 0, 0, 0]]], ["childName"]⟩ [.leaf "original.js" none]).2.1
     "original.js" none 4 7 "keep",
   (name_override 2 ⟨[[[0, 0, 0, 0, 0]]], ["childName"]⟩ [.leaf "original.js" none]).2.2.1
     0 0 "alpha" [[0, 0, 0, 0, 0]] (.leaf "original.js" none) (by decide) (by decide)
     (by decide) (by rfl),
   ((name_override 2 ⟨[[[1, 0, 0, 0, 0]]], ["rootName"]⟩
       [.node ⟨[[[0, 0, 0, 0, 0]]], ["childName"]⟩
         [.leaf "original.js" (some "content")]]).2.2.2.1
     ⟨⟨[]⟩, ⟨[]⟩, []⟩ [1, 0, 0, 0, 0]
     (.node ⟨[[[0, 0, 0, 0, 0]]], ["childName"]⟩ [.leaf "original.js" (some "content")])
     ⟨0, 0, "childName", "original.js", some "content"⟩
     (by decide) (by rfl) (by rfl)).1 (by decide)⟩

/-! ### C10: generated geometry is preserved -/

/-- C10: the composed output has exactly one row per root row, and the
generated columns of each output row form a sublist (order-preserving
selection) of the generated columns of the corresponding root row —
every emitted segment keeps the generated column of the root segment
it came from, and skipped segments (arity 1 or failed traces) drop out
without disturbing their row. -/
theorem trace_geometry (fuel : Nat) (m : DecMapT) (srcs : List Graph) (out : TracedMap)
    (hok : traceMappings fuel m srcs = .ok out) :
    out.mappings.length = m.mappings.length ∧
    ∀ i : Nat, ((out.mappings.getD i []).map (fun s => s.getD 0 0)).Sublist
      ((m.mappings.getD i []).map (fun s => s.getD 0 0)) := by
  simp only [traceMappings] at hok
  rcases h : traceRows fuel m srcs ⟨⟨[]⟩, ⟨[]⟩, []⟩ m.mappings with e | ⟨mappings, acc⟩
  · simp only [h] at hok
    simp at hok
  · simp only [h] at hok
    obtain ⟨_, _, hlen, hsub, _⟩ := traceRows_spec fuel m srcs m.mappings ⟨⟨[]⟩, ⟨[]⟩, []⟩
      (mappings, acc) h (by intro nm hnm; simp at hnm)
    simp only [Except.ok.injEq] at hok
    rw [← hok]
    exact ⟨hlen, hsub⟩

/-- Witness for `trace_geometry` at a concrete two-row root over a
child map and a leaf. -/
theorem trace_geometry_witness :
    traceMappings 2 ⟨[[[1, 0, 0, 0, 0], [9]], [[3, 0, 0, 2]]], ["rootName"]⟩
        [.node ⟨[[[0, 0, 0, 0, 0]]], ["childName"]⟩ [.leaf "original.js" (some "content")]]
      = .ok ⟨[[[1, 0, 0, 0, 0]], [[3, 0, 0, 0, 0]]], ["childName"], ["original.js"],
             [some "content"]⟩ ∧
    (([[[1, 0, 0, 0, 0]], [[3, 0, 0, 0, 0]]] : List (List Seg)).length
        = ([[[1, 0, 0, 0, 0], [9]], [[3, 0, 0, 2]]] : List (List Seg)).length ∧
     ∀ i : Nat,
       ((([[[1, 0, 0, 0, 0]], [[3, 0, 0, 0, 0]]] : List (List Seg)).getD i []).map
           (fun s => s.getD 0 0)).Sublist
         ((([[[1, 0, 0, 0, 0], [9]], [[3, 0, 0, 2]]] : List (List Seg)).getD i []).map
           (fun s => s.getD 0 0))) :=
  ⟨by rfl,
   trace_geometry 2 ⟨[[[1, 0, 0, 0, 0], [9]], [[3, 0, 0, 2]]], ["rootName"]⟩
     [.node ⟨[[[0, 0, 0, 0, 0]]], ["childName"]⟩ [.leaf "original.js" (some "content")]]
     ⟨[[[1, 0, 0, 0, 0]], [[3, 0, 0, 0, 0]]], ["childName"], ["original.js"],
      [some "content"]⟩ (by rfl)⟩

/-! ### Codec round trip (claim C1) -/

/-- Bitwise or of a value below `2^s` with a value shifted left by `s`
is plain addition. -/
theorem or_shiftLeft_eq_add {a c s : Nat} (ha : a < 2 ^ s) :
    a ||| (c <<< s) = a + c * 2 ^ s := by
  rw [Nat.shiftLeft_eq, Nat.lor_comm, mul_comm c (2 ^ s), ← Nat.mul_add_lt_is_or ha c]
  omega

/-- Every digit value emitted by the VLQ digit loop is below 64. -/
theorem encodeVlqGo_lt_64 : ∀ (fuel w : Nat), ∀ d ∈ encodeVlqGo fuel w, d < 64 := by
  intro fuel
  induction fuel with
  | zero => intro w d hd; simp [encodeVlqGo] at hd
  | succ fuel ih =>
    intro w d hd
    simp only [encodeVlqGo] at hd
    by_cases h : 0 < w >>> 5
    · rw [if_pos h] at hd
      rcases List.mem_cons.mp hd with h1 | h1
      · subst h1; omega
      · exact ih _ _ h1
    · rw [if_neg h] at hd
      simp only [List.mem_singleton] at hd
      subst hd; omega

/-- The VLQ digit loop emits at least one digit when given fuel. -/
theorem encodeVlqGo_ne_nil (fuel w : Nat) (h : 0 < fuel) : encodeVlqGo fuel w ≠ [] := by
  cases fuel with
  | zero => omega
  | succ fuel =>
    simp only [encodeVlqGo]
    by_cases h5 : 0 < w >>> 5
    · rw [if_pos h5]; simp
    · rw [if_neg h5]; simp

/-- A value below `2^(32-shift)` contributes below `2^32` at `shift`. -/
theorem vlq_bound {w value shift : Nat} (hv : value < 2 ^ shift)
    (hw2 : w < 2 ^ (32 - shift)) (hs : shift ≤ 32) :
    w * 2 ^ shift + value < 4294967296 := by
  have h2 : 2 ^ (32 - shift) * 2 ^ shift = 4294967296 := by
    rw [← pow_add]
    have h32 : 32 - shift + shift = 32 := by omega
    rw [h32]
    norm_num
  have h1 : w * 2 ^ shift + 2 ^ shift ≤ 2 ^ (32 - shift) * 2 ^ shift := by
    have he : w * 2 ^ shift + 2 ^ shift = (w + 1) * 2 ^ shift := by ring
    rw [he]
    exact mul_le_mul_right' (by omega) (2 ^ shift)
  omega

/-- One unfolding step of the VLQ digit loop. -/
theorem encodeVlqGo_succ (fuel w : Nat) :
    encodeVlqGo (fuel + 1) w
      = if 0 < w >>> 5 then (w % 32 + 32) :: encodeVlqGo fuel (w >>> 5)
        else [w % 32] := by
  simp only [encodeVlqGo]

/-- Decoding a single terminal digit accumulates its value at the
current shift and stops, leaving the rest of the input. -/
theorem decodeVlq_enc_last (w value shift : Nat) (rest : List Nat)
    (hw : w < 32) (hv : value < 2 ^ shift) (hs : shift ≤ 30)
    (hb : w * 2 ^ shift + value < 4294967296) :
    decodeVlq (intToChar w :: rest) value shift = (rest, value + w * 2 ^ shift) := by
  simp only [decodeVlq]
  rw [charToInteger_intToChar w (by omega)]
  rw [if_neg (by omega)]
  have hsm : shift % 32 = shift := Nat.mod_eq_of_lt (by omega)
  have hwm : w % 32 = w := Nat.mod_eq_of_lt hw
  rw [hsm, hwm, or_shiftLeft_eq_add hv, Nat.mod_eq_of_lt (by omega)]

/-- Decoding the digits the encoder emits for `w` accumulates exactly
`w` at the current shift and continues with the following input. -/
theorem decodeVlq_enc : ∀ (fuel w value shift : Nat) (rest : List Nat),
    value < 2 ^ shift → shift ≤ 30 → shift % 5 = 0 → w < 2 ^ (32 - shift) →
    w < 32 ^ (fuel + 1) →
    decodeVlq ((encodeVlqGo (fuel + 1) w).map intToChar ++ rest) value shift
      = (rest, value + w * 2 ^ shift) := by
  intro fuel
  induction fuel with
  | zero =>
    intro w value shift rest hv hs hs5 hw2 hw
    have h321 : (32 : Nat) ^ (0 + 1) = 32 := by norm_num
    rw [h321] at hw
    have h5 : ¬ 0 < w >>> 5 := by
      rw [Nat.shiftRight_eq_div_pow]
      norm_num
      omega
    rw [encodeVlqGo_succ, if_neg h5]
    simp only [List.map_cons, List.map_nil, List.cons_append, List.nil_append]
    rw [Nat.mod_eq_of_lt hw]
    exact decodeVlq_enc_last w value shift rest hw hv hs (vlq_bound hv hw2 (by omega))
  | succ fuel ih =>
    intro w value shift rest hv hs hs5 hw2 hw
    by_cases h5 : 0 < w >>> 5
    · have h32 : 32 ≤ w := by
        rw [Nat.shiftRight_eq_div_pow] at h5
        norm_num at h5
        omega
      have hsle : shift ≤ 25 := by
        by_contra hc
        have h30 : shift = 30 := by omega
        rw [h30] at hw2
        norm_num at hw2
        omega
      rw [encodeVlqGo_succ, if_pos h5]
      simp only [List.map_cons, List.cons_append]
      simp only [decodeVlq]
      rw [charToInteger_intToChar (w % 32 + 32) (by omega)]
      rw [if_pos (by omega)]
      have hm1 : (w % 32 + 32) % 32 = w % 32 := by omega
      have hsm : shift % 32 = shift := Nat.mod_eq_of_lt (by omega)
      rw [hm1, hsm, or_shiftLeft_eq_add hv,
          Nat.mod_eq_of_lt (by
            have := vlq_bound hv (show w % 32 < 2 ^ (32 - shift) by omega) (by omega)
            omega)]
      have hdm : 32 * (w >>> 5) + w % 32 = w := by
        rw [Nat.shiftRight_eq_div_pow]
        norm_num
        omega
      have hpow : (2 : Nat) ^ (32 - shift) = 2 ^ (32 - (shift + 5)) * 32 := by
        rw [show 32 - shift = 32 - (shift + 5) + 5 by omega, pow_add]
        norm_num
      have h32p : (2 : Nat) ^ (shift + 5) = 32 * 2 ^ shift := by
        rw [pow_add]
        ring
      have hrec := ih (w >>> 5) (value + w % 32 * 2 ^ shift) (shift + 5) rest
        (by
          rw [h32p]
          have hle : w % 32 * 2 ^ shift ≤ 31 * 2 ^ shift :=
            mul_le_mul_right' (by omega) (2 ^ shift)
          omega)
        (by omega) (by omega)
        (by
          rw [Nat.shiftRight_eq_div_pow]
          norm_num
          rw [Nat.div_lt_iff_lt_mul (by norm_num : (0 : Nat) < 32)]
          omega)
        (by
          rw [Nat.shiftRight_eq_div_pow]
          norm_num
          rw [Nat.div_lt_iff_lt_mul (by norm_num : (0 : Nat) < 32)]
          have hps : (32 : Nat) ^ (fuel + 1 + 1) = 32 ^ (fuel + 1) * 32 := by
            rw [pow_succ]
          omega)
      rw [hrec, h32p]
      have hgoal : value + w % 32 * 2 ^ shift + w >>> 5 * (32 * 2 ^ shift)
          = value + w * 2 ^ shift := by
        conv_rhs => rw [← hdm]
        ring
      rw [hgoal]
    · rw [encodeVlqGo_succ, if_neg h5]
      have hlt : w < 32 := by
        rw [Nat.shiftRight_eq_div_pow] at h5
        norm_num at h5
        omega
      simp only [List.map_cons, List.map_nil, List.cons_append, List.nil_append]
      rw [Nat.mod_eq_of_lt hlt]
      exact decodeVlq_enc_last w value shift rest hlt hv hs (vlq_bound hv hw2 (by omega))

/-- Setting the low bit of an even number adds one. -/
theorem two_mul_or_one (m : Nat) : 2 * m ||| 1 = 2 * m + 1 := by
  have h1 : (1 : Nat) ||| (m <<< 1) = 1 + m * 2 ^ 1 := or_shiftLeft_eq_add (by norm_num)
  rw [Nat.shiftLeft_eq, Nat.lor_comm] at h1
  have h2 : m * 2 ^ 1 = 2 * m := by ring
  rw [h2] at h1
  rw [h1]
  omega

/-- Decoding the full digit list of a 32-bit value at shift 0 yields
the value and leaves the following input. -/
theorem decodeVlq_digits (w : Nat) (rest : List Nat) (hw : w < 4294967296) :
    decodeVlq ((encodeVlqDigits w).map intToChar ++ rest) 0 0 = (rest, w) := by
  have h := decodeVlq_enc 7 w 0 0 rest (by norm_num) (by norm_num) (by norm_num)
    (by
      have h1 : (2 : Nat) ^ (32 - 0) = 4294967296 := by norm_num
      omega)
    (by
      have h1 : (32 : Nat) ^ (7 + 1) = 1099511627776 := by norm_num
      omega)
  simp only [encodeVlqDigits]
  rw [show (8 : Nat) = 7 + 1 by norm_num]
  rw [h]
  norm_num

/-- `decodeInteger` applied to the output of `encodeInteger` recovers
the encoded absolute value and leaves the following input, when both
the state slot and the target are non-negative 32-bit values; the
returned state slot is the target itself. -/
theorem decodeInteger_enc (s next : Int) (rest : List Nat)
    (hs : InRange s) (hn : InRange next) :
    decodeInteger ((encodeInteger s next).2 ++ rest) s = (rest, next) ∧
    (encodeInteger s next).1 = next := by
  obtain ⟨hs0, hs1⟩ := hs
  obtain ⟨hn0, hn1⟩ := hn
  have hnext : toInt32 next = next := toInt32_eq_self (by omega) hn1
  refine ⟨?_, hnext⟩
  simp only [encodeInteger]
  by_cases hneg : next - s < 0
  · rw [if_pos hneg]
    have h1 : (2 * (-(next - s))).toNat % 4294967296 = 2 * (s - next).toNat := by omega
    rw [h1, two_mul_or_one]
    simp only [decodeInteger]
    rw [decodeVlq_digits _ _ (by omega)]
    dsimp only
    have hodd : (2 * (s - next).toNat + 1) % 2 = 1 := by omega
    rw [if_pos hodd]
    have hdiv : (2 * (s - next).toNat + 1) / 2 = (s - next).toNat := by omega
    rw [hdiv]
    have hm0 : ¬ (((s - next).toNat : Int) = 0) := by omega
    rw [if_neg hm0]
    have harg : s + -(((s - next).toNat : Int)) = next := by omega
    rw [harg, hnext]
  · rw [if_neg hneg]
    have h1 : (2 * (next - s)).toNat % 4294967296 = 2 * (next - s).toNat := by omega
    rw [h1]
    simp only [decodeInteger]
    rw [decodeVlq_digits _ _ (by omega)]
    dsimp only
    have heven : ¬ ((2 * (next - s).toNat) % 2 = 1) := by omega
    rw [if_neg heven]
    have hdiv : (2 * (next - s).toNat) / 2 = (next - s).toNat := by omega
    rw [hdiv]
    have harg : s + (((next - s).toNat : Int)) = next := by omega
    rw [harg, hnext]

/-- The remaining input of `decodeInteger` is that of the VLQ loop. -/
theorem decodeInteger_fst (rest : List Nat) (s : Int) :
    (decodeInteger rest s).1 = (decodeVlq rest 0 0).1 := rfl

/-- The VLQ loop never lengthens the input. -/
theorem decodeVlq_len_le : ∀ (rest : List Nat) (value shift : Nat),
    (decodeVlq rest value shift).1.length ≤ rest.length := by
  intro rest
  induction rest with
  | nil => intro value shift; simp [decodeVlq]
  | cons c r ih =>
    intro value shift
    simp only [decodeVlq]
    by_cases h : 32 ≤ charToInteger c
    · rw [if_pos h]
      exact le_trans (ih _ _) (by simp)
    · rw [if_neg h]
      simp

/-- The VLQ loop consumes at least one character. -/
theorem decodeVlq_len_lt (c : Nat) (r : List Nat) (value shift : Nat) :
    (decodeVlq (c :: r) value shift).1.length < (c :: r).length := by
  simp only [decodeVlq]
  by_cases h : 32 ≤ charToInteger c
  · rw [if_pos h]
    exact lt_of_le_of_lt (decodeVlq_len_le _ _ _) (by simp)
  · rw [if_neg h]
    simp

/-- The decode loop is fuel-irrelevant: any fuel exceeding the input
length computes the canonical run. -/
theorem decodeLoop_fuel_irrel : ∀ (n fuel : Nat) (rest : List Nat) (st : VState)
    (decoded : List (List Seg)) (line : List Seg) (sorted : Bool) (lastCol : Int),
    rest.length = n → n < fuel →
    decodeLoop fuel rest st decoded line sorted lastCol
      = decodeRun rest st decoded line sorted lastCol := by
  intro n
  induction n using Nat.strong_induction_on with
  | _ n ih =>
    intro fuel rest st decoded line sorted lastCol hlen hfuel
    cases fuel with
    | zero => omega
    | succ f =>
      cases rest with
      | nil => rfl
      | cons c r =>
        have hlen' : r.length + 1 = n := by simpa using hlen
        have hle : ∀ (x : List Nat) (t : Int), (decodeInteger x t).1.length ≤ x.length := by
          intro x t
          rw [decodeInteger_fst]
          exact decodeVlq_len_le _ 0 0
        have hl0 : (decodeInteger (c :: r) st.s0).1.length ≤ r.length := by
          rw [decodeInteger_fst]
          have h := decodeVlq_len_lt c r 0 0
          simp only [List.length_cons] at h
          omega
        have h1 := hle (decodeInteger (c :: r) st.s0).1 st.s1
        have h2 := hle (decodeInteger (decodeInteger (c :: r) st.s0).1 st.s1).1 st.s2
        have h3 := hle (decodeInteger (decodeInteger (decodeInteger (c :: r) st.s0).1
            st.s1).1 st.s2).1 st.s3
        have h4 := hle (decodeInteger (decodeInteger (decodeInteger (decodeInteger (c :: r)
            st.s0).1 st.s1).1 st.s2).1 st.s3).1 st.s4
        rw [decodeLoop]
        conv_rhs => rw [decodeRun, List.length_cons, decodeLoop]
        dsimp only
        split_ifs <;>
          (refine (ih _ ?_ f _ _ _ _ _ _ rfl ?_).trans
            ((ih _ ?_ _ _ _ _ _ _ _ rfl ?_).symm) <;> omega)

/-- Canonical-run equation: end of input emits the current row. -/
theorem decodeRun_nil (st : VState) (decoded : List (List Seg)) (line : List Seg)
    (sorted : Bool) (lastCol : Int) :
    decodeRun [] st decoded line sorted lastCol
      = decoded ++ [if sorted then line else sortLine line] := rfl

/-- Canonical-run equation: a comma is skipped. -/
theorem decodeRun_comma (r : List Nat) (st : VState) (decoded : List (List Seg))
    (line : List Seg) (sorted : Bool) (lastCol : Int) :
    decodeRun (44 :: r) st decoded line sorted lastCol
      = decodeRun r st decoded line sorted lastCol := by
  have h : decodeRun (44 :: r) st decoded line sorted lastCol
      = decodeLoop (r.length + 1) r st decoded line sorted lastCol := rfl
  rw [h]
  exact decodeLoop_fuel_irrel r.length (r.length + 1) r st decoded line sorted lastCol
    rfl (by omega)

/-- Canonical-run equation: a semicolon emits the current row, resets
the generated-column slot and starts a fresh row. -/
theorem decodeRun_semi (r : List Nat) (st : VState) (decoded : List (List Seg))
    (line : List Seg) (sorted : Bool) (lastCol : Int) :
    decodeRun (59 :: r) st decoded line sorted lastCol
      = decodeRun r { st with s0 := 0 }
          (decoded ++ [if sorted then line else sortLine line]) [] true 0 := by
  have h : decodeRun (59 :: r) st decoded line sorted lastCol
      = decodeLoop (r.length + 1) r { st with s0 := 0 }
          (decoded ++ [if sorted then line else sortLine line]) [] true 0 := rfl
  rw [h]
  exact decodeLoop_fuel_irrel r.length (r.length + 1) r _ _ _ _ _ rfl (by omega)

/-- Canonical-run equation: a field character followed by a separator
parses a one-field segment. -/
theorem decodeRun_field1 (c : Nat) (r : List Nat) (h44 : ¬ c = 44) (h59 : ¬ c = 59)
    (st : VState) (decoded : List (List Seg)) (line : List Seg) (sorted : Bool)
    (lastCol : Int)
    (hm : ¬ hasMoreSegments (decodeInteger (c :: r) st.s0).1) :
    decodeRun (c :: r) st decoded line sorted lastCol
      = decodeRun (decodeInteger (c :: r) st.s0).1
          { st with s0 := (decodeInteger (c :: r) st.s0).2 } decoded
          (line ++ [[(decodeInteger (c :: r) st.s0).2]])
          (if (decodeInteger (c :: r) st.s0).2 < lastCol then false else sorted)
          (decodeInteger (c :: r) st.s0).2 := by
  have hl0 : (decodeInteger (c :: r) st.s0).1.length ≤ r.length := by
    rw [decodeInteger_fst]
    have h := decodeVlq_len_lt c r 0 0
    simp only [List.length_cons] at h
    omega
  rw [decodeRun, List.length_cons, decodeLoop]
  rw [if_neg h44, if_neg h59, if_pos hm]
  exact decodeLoop_fuel_irrel _ _ _ _ _ _ _ _ rfl (by omega)

/-- Canonical-run equation: four consecutive fields parse a four-field
segment. -/
theorem decodeRun_field4 (c : Nat) (r : List Nat) (h44 : ¬ c = 44) (h59 : ¬ c = 59)
    (st : VState) (decoded : List (List Seg)) (line : List Seg) (sorted : Bool)
    (lastCol : Int)
    (hm0 : hasMoreSegments (decodeInteger (c :: r) st.s0).1 = true)
    (hm3 : ¬ hasMoreSegments (decodeInteger (decodeInteger (decodeInteger (decodeInteger
        (c :: r) st.s0).1 st.s1).1 st.s2).1 st.s3).1) :
    decodeRun (c :: r) st decoded line sorted lastCol
      = decodeRun
          (decodeInteger (decodeInteger (decodeInteger (decodeInteger (c :: r) st.s0).1
            st.s1).1 st.s2).1 st.s3).1
          ⟨(decodeInteger (c :: r) st.s0).2,
           (decodeInteger (decodeInteger (c :: r) st.s0).1 st.s1).2,
           (decodeInteger (decodeInteger (decodeInteger (c :: r) st.s0).1 st.s1).1 st.s2).2,
           (decodeInteger (decodeInteger (decodeInteger (decodeInteger (c :: r) st.s0).1
             st.s1).1 st.s2).1 st.s3).2,
           st.s4⟩ decoded
          (line ++ [[(decodeInteger (c :: r) st.s0).2,
            (decodeInteger (decodeInteger (c :: r) st.s0).1 st.s1).2,
            (decodeInteger (decodeInteger (decodeInteger (c :: r) st.s0).1 st.s1).1
              st.s2).2,
            (decodeInteger (decodeInteger (decodeInteger (decodeInteger (c :: r) st.s0).1
              st.s1).1 st.s2).1 st.s3).2]])
          (if (decodeInteger (c :: r) st.s0).2 < lastCol then false else sorted)
          (decodeInteger (c :: r) st.s0).2 := by
  have hle : ∀ (x : List Nat) (t : Int), (decodeInteger x t).1.length ≤ x.length := by
    intro x t
    rw [decodeInteger_fst]
    exact decodeVlq_len_le _ 0 0
  have hl0 : (decodeInteger (c :: r) st.s0).1.length ≤ r.length := by
    rw [decodeInteger_fst]
    have h := decodeVlq_len_lt c r 0 0
    simp only [List.length_cons] at h
    omega
  have h1 := hle (decodeInteger (c :: r) st.s0).1 st.s1
  have h2 := hle (decodeInteger (decodeInteger (c :: r) st.s0).1 st.s1).1 st.s2
  have h3 := hle (decodeInteger (decodeInteger (decodeInteger (c :: r) st.s0).1
      st.s1).1 st.s2).1 st.s3
  rw [decodeRun, List.length_cons, decodeLoop]
  rw [if_neg h44, if_neg h59, if_neg (not_not_intro hm0), if_pos hm3]
  exact decodeLoop_fuel_irrel _ _ _ _ _ _ _ _ rfl (by omega)

/-- Canonical-run equation: five consecutive fields parse a five-field
segment. -/
theorem decodeRun_field5 (c : Nat) (r : List Nat) (h44 : ¬ c = 44) (h59 : ¬ c = 59)
    (st : VState) (decoded : List (List Seg)) (line : List Seg) (sorted : Bool)
    (lastCol : Int)
    (hm0 : hasMoreSegments (decodeInteger (c :: r) st.s0).1 = true)
    (hm3 : hasMoreSegments (decodeInteger (decodeInteger (decodeInteger (decodeInteger
        (c :: r) st.s0).1 st.s1).1 st.s2).1 st.s3).1 = true) :
    decodeRun (c :: r) st decoded line sorted lastCol
      = decodeRun
          (decodeInteger (decodeInteger (decodeInteger (decodeInteger (decodeInteger
            (c :: r) st.s0).1 st.s1).1 st.s2).1 st.s3).1 st.s4).1
          ⟨(decodeInteger (c :: r) st.s0).2,
           (decodeInteger (decodeInteger (c :: r) st.s0).1 st.s1).2,
           (decodeInteger (decodeInteger (decodeInteger (c :: r) st.s0).1 st.s1).1 st.s2).2,
           (decodeInteger (decodeInteger (decodeInteger (decodeInteger (c :: r) st.s0).1
             st.s1).1 st.s2).1 st.s3).2,
           (decodeInteger (decodeInteger (decodeInteger (decodeInteger (decodeInteger
             (c :: r) st.s0).1 st.s1).1 st.s2).1 st.s3).1 st.s4).2⟩ decoded
          (line ++ [[(decodeInteger (c :: r) st.s0).2,
            (decodeInteger (decodeInteger (c :: r) st.s0).1 st.s1).2,
            (decodeInteger (decodeInteger (decodeInteger (c :: r) st.s0).1 st.s1).1
              st.s2).2,
            (decodeInteger (decodeInteger (decodeInteger (decodeInteger (c :: r) st.s0).1
              st.s1).1 st.s2).1 st.s3).2,
            (decodeInteger (decodeInteger (decodeInteger (decodeInteger (decodeInteger
              (c :: r) st.s0).1 st.s1).1 st.s2).1 st.s3).1 st.s4).2]])
          (if (decodeInteger (c :: r) st.s0).2 < lastCol then false else sorted)
          (decodeInteger (c :: r) st.s0).2 := by
  have hle : ∀ (x : List Nat) (t : Int), (decodeInteger x t).1.length ≤ x.length := by
    intro x t
    rw [decodeInteger_fst]
    exact decodeVlq_len_le _ 0 0
  have hl0 : (decodeInteger (c :: r) st.s0).1.length ≤ r.length := by
    rw [decodeInteger_fst]
    have h := decodeVlq_len_lt c r 0 0
    simp only [List.length_cons] at h
    omega
  have h1 := hle (decodeInteger (c :: r) st.s0).1 st.s1
  have h2 := hle (decodeInteger (decodeInteger (c :: r) st.s0).1 st.s1).1 st.s2
  have h3 := hle (decodeInteger (decodeInteger (decodeInteger (c :: r) st.s0).1
      st.s1).1 st.s2).1 st.s3
  have h4 := hle (decodeInteger (decodeInteger (decodeInteger (decodeInteger (c :: r)
      st.s0).1 st.s1).1 st.s2).1 st.s3).1 st.s4
  rw [decodeRun, List.length_cons, decodeLoop]
  rw [if_neg h44, if_neg h59, if_neg (not_not_intro hm0), if_neg (not_not_intro hm3)]
  exact decodeLoop_fuel_irrel _ _ _ _ _ _ _ _ rfl (by omega)

/-- The digit list of a VLQ value is non-empty and starts with a digit
value below 64. -/
theorem encodeVlqDigits_shape (w : Nat) :
    ∃ d t, encodeVlqDigits w = d :: t ∧ d < 64 := by
  cases hE : encodeVlqDigits w with
  | nil => exact absurd hE (encodeVlqGo_ne_nil 8 w (by norm_num))
  | cons d t =>
    refine ⟨d, t, rfl, encodeVlqGo_lt_64 8 w d ?_⟩
    rw [show encodeVlqGo 8 w = encodeVlqDigits w from rfl, hE]
    simp

/-- The character stream of one encoded integer starts with a character
that is neither a comma nor a semicolon. -/
theorem encodeInteger_stream (s n : Int) :
    ∃ d t, (encodeInteger s n).2 = d :: t ∧ ¬ d = 44 ∧ ¬ d = 59 := by
  simp only [encodeInteger]
  obtain ⟨d0, t0, hE, hd⟩ := encodeVlqDigits_shape
    (if n - s < 0 then ((2 * (-(n - s))).toNat % 4294967296) ||| 1
     else (2 * (n - s)).toNat % 4294967296)
  rw [hE]
  simp only [List.map_cons]
  obtain ⟨h44, h59⟩ := intToChar_ne_sep d0 hd
  exact ⟨intToChar d0, t0.map intToChar, rfl, h44, h59⟩

/-- A stream that continues with an encoded integer has more segment
fields. -/
theorem hasMore_encInt (s n : Int) (x : List Nat) :
    hasMoreSegments ((encodeInteger s n).2 ++ x) = true := by
  obtain ⟨d, t, hE, h44, h59⟩ := encodeInteger_stream s n
  rw [hE]
  simp only [List.cons_append, hasMoreSegments]
  simp [h44, h59]

/-- A stream at a segment boundary has no more segment fields. -/
theorem hasMore_isSep (x : List Nat) (h : IsSep x) : hasMoreSegments x = false := by
  cases x with
  | nil => rfl
  | cons c t =>
    simp only [IsSep] at h
    rcases h with h | h <;> subst h <;> rfl

/-- A one-element list is the list of its first entry. -/
theorem list_len1 (l : Seg) (h : l.length = 1) : l = [l.getD 0 0] := by
  rcases l with _ | ⟨a, _ | ⟨b, t⟩⟩
  · simp at h
  · rfl
  · simp only [List.length_cons] at h
    omega

/-- A four-element list is the list of its four entries. -/
theorem list_len4 (l : Seg) (h : l.length = 4) :
    l = [l.getD 0 0, l.getD 1 0, l.getD 2 0, l.getD 3 0] := by
  rcases l with _ | ⟨a, _ | ⟨b, _ | ⟨c, _ | ⟨d, _ | ⟨e, t⟩⟩⟩⟩⟩
  · simp at h
  · simp at h
  · simp at h
  · simp at h
  · rfl
  · simp only [List.length_cons] at h
    omega

/-- A five-element list is the list of its five entries. -/
theorem list_len5 (l : Seg) (h : l.length = 5) :
    l = [l.getD 0 0, l.getD 1 0, l.getD 2 0, l.getD 3 0, l.getD 4 0] := by
  rcases l with _ | ⟨a, _ | ⟨b, _ | ⟨c, _ | ⟨d, _ | ⟨e, _ | ⟨f, t⟩⟩⟩⟩⟩⟩
  · simp at h
  · simp at h
  · simp at h
  · simp at h
  · simp at h
  · rfl
  · simp only [List.length_cons] at h
    omega

/-- In-bounds `getD` values are members of the list. -/
theorem getD_mem (l : Seg) (i : Nat) (hi : i < l.length) : l.getD i 0 ∈ l := by
  rw [getD_get l 0 hi]
  exact List.get_mem l i hi

/-- The first slot of an encoded integer is the target when in range. -/
theorem encodeInteger_fst (s n : Int) (hn : InRange n) : (encodeInteger s n).1 = n := by
  obtain ⟨h1, h2⟩ := hn
  simp only [encodeInteger]
  exact toInt32_eq_self (by omega) h2

/-- Decoding one encoded segment consumes exactly its characters,
appends the segment to the current row, keeps the row sorted and leaves
the decoder state equal to the encoder state. -/
theorem decodeRun_seg (st : VState) (seg : Seg) (rest : List Nat)
    (decoded : List (List Seg)) (line : List Seg) (lastCol : Int)
    (hst : StOk st) (hseg : SegOk seg) (hcol : lastCol ≤ seg.getD 0 0)
    (hsep : IsSep rest) :
    decodeRun ((encodeSegment st seg).2 ++ rest) st decoded line true lastCol
      = decodeRun rest (encodeSegment st seg).1 decoded (line ++ [seg]) true
          (seg.getD 0 0) := by
  obtain ⟨hst0, hst1, hst2, hst3, hst4⟩ := hst
  obtain ⟨har, hval⟩ := hseg
  have hv0 : InRange (seg.getD 0 0) := hval _ (getD_mem seg 0 (by omega))
  have hnotlt : ¬ seg.getD 0 0 < lastCol := not_lt.mpr hcol
  rcases har with h1 | h4 | h5
  · have hES : encodeSegment st seg
        = ({ st with s0 := (encodeInteger st.s0 (seg.getD 0 0)).1 },
           (encodeInteger st.s0 (seg.getD 0 0)).2) := by
      simp only [encodeSegment]
      rw [if_pos h1]
    obtain ⟨k0, k0s⟩ := decodeInteger_enc st.s0 (seg.getD 0 0) rest hst0 hv0
    obtain ⟨d, t, hdt, h44, h59⟩ := encodeInteger_stream st.s0 (seg.getD 0 0)
    have hline1 : (line ++ [seg] : List Seg) = line ++ [[seg.getD 0 0]] := by
      conv_lhs => rw [list_len1 seg h1]
    rw [hES]
    dsimp only
    rw [hdt, List.cons_append]
    rw [decodeRun_field1 d _ h44 h59 st decoded line true lastCol
      (by
        rw [← List.cons_append, ← hdt, k0]
        show ¬ hasMoreSegments rest = true
        rw [hasMore_isSep rest hsep]
        simp)]
    rw [← List.cons_append, ← hdt, k0, k0s, hline1]
    dsimp only
    rw [if_neg hnotlt]
  · have hv1 : InRange (seg.getD 1 0) := hval _ (getD_mem seg 1 (by omega))
    have hv2 : InRange (seg.getD 2 0) := hval _ (getD_mem seg 2 (by omega))
    have hv3 : InRange (seg.getD 3 0) := hval _ (getD_mem seg 3 (by omega))
    have hES : encodeSegment st seg
        = (⟨(encodeInteger st.s0 (seg.getD 0 0)).1,
            (encodeInteger st.s1 (seg.getD 1 0)).1,
            (encodeInteger st.s2 (seg.getD 2 0)).1,
            (encodeInteger st.s3 (seg.getD 3 0)).1, st.s4⟩,
           (encodeInteger st.s0 (seg.getD 0 0)).2
             ++ (encodeInteger st.s1 (seg.getD 1 0)).2
             ++ (encodeInteger st.s2 (seg.getD 2 0)).2
             ++ (encodeInteger st.s3 (seg.getD 3 0)).2) := by
      simp only [encodeSegment]
      rw [if_neg (by omega), if_pos h4]
    obtain ⟨k3, k3s⟩ := decodeInteger_enc st.s3 (seg.getD 3 0) rest hst3 hv3
    obtain ⟨k2, k2s⟩ := decodeInteger_enc st.s2 (seg.getD 2 0)
      ((encodeInteger st.s3 (seg.getD 3 0)).2 ++ rest) hst2 hv2
    obtain ⟨k1, k1s⟩ := decodeInteger_enc st.s1 (seg.getD 1 0)
      ((encodeInteger st.s2 (seg.getD 2 0)).2 ++ ((encodeInteger st.s3 (seg.getD 3 0)).2
        ++ rest)) hst1 hv1
    obtain ⟨k0, k0s⟩ := decodeInteger_enc st.s0 (seg.getD 0 0)
      ((encodeInteger st.s1 (seg.getD 1 0)).2 ++ ((encodeInteger st.s2 (seg.getD 2 0)).2
        ++ ((encodeInteger st.s3 (seg.getD 3 0)).2 ++ rest))) hst0 hv0
    obtain ⟨d, t, hdt, h44, h59⟩ := encodeInteger_stream st.s0 (seg.getD 0 0)
    have hline4 : (line ++ [seg] : List Seg)
        = line ++ [[seg.getD 0 0, seg.getD 1 0, seg.getD 2 0, seg.getD 3 0]] := by
      conv_lhs => rw [list_len4 seg h4]
    rw [hES]
    dsimp only
    simp only [List.append_assoc]
    rw [hdt, List.cons_append]
    rw [decodeRun_field4 d _ h44 h59 st decoded line true lastCol
      (by
        rw [← List.cons_append, ← hdt, k0]
        exact hasMore_encInt st.s1 (seg.getD 1 0) _)
      (by
        rw [← List.cons_append, ← hdt]
        simp only [k0, k1, k2, k3]
        rw [hasMore_isSep rest hsep]
        simp)]
    rw [← List.cons_append, ← hdt]
    simp only [k0, k1, k2, k3, k0s, k1s, k2s, k3s]
    rw [hline4]
    rw [if_neg hnotlt]
  · have hv1 : InRange (seg.getD 1 0) := hval _ (getD_mem seg 1 (by omega))
    have hv2 : InRange (seg.getD 2 0) := hval _ (getD_mem seg 2 (by omega))
    have hv3 : InRange (seg.getD 3 0) := hval _ (getD_mem seg 3 (by omega))
    have hv4 : InRange (seg.getD 4 0) := hval _ (getD_mem seg 4 (by omega))
    have hES : encodeSegment st seg
        = (⟨(encodeInteger st.s0 (seg.getD 0 0)).1,
            (encodeInteger st.s1 (seg.getD 1 0)).1,
            (encodeInteger st.s2 (seg.getD 2 0)).1,
            (encodeInteger st.s3 (seg.getD 3 0)).1,
            (encodeInteger st.s4 (seg.getD 4 0)).1⟩,
           (encodeInteger st.s0 (seg.getD 0 0)).2
             ++ (encodeInteger st.s1 (seg.getD 1 0)).2
             ++ (encodeInteger st.s2 (seg.getD 2 0)).2
             ++ (encodeInteger st.s3 (seg.getD 3 0)).2
             ++ (encodeInteger st.s4 (seg.getD 4 0)).2) := by
      simp only [encodeSegment]
      rw [if_neg (by omega), if_neg (by omega)]
    obtain ⟨k4, k4s⟩ := decodeInteger_enc st.s4 (seg.getD 4 0) rest hst4 hv4
    obtain ⟨k3, k3s⟩ := decodeInteger_enc st.s3 (seg.getD 3 0)
      ((encodeInteger st.s4 (seg.getD 4 0)).2 ++ rest) hst3 hv3
    obtain ⟨k2, k2s⟩ := decodeInteger_enc st.s2 (seg.getD 2 0)
      ((encodeInteger st.s3 (seg.getD 3 0)).2 ++ ((encodeInteger st.s4 (seg.getD 4 0)).2
        ++ rest)) hst2 hv2
    obtain ⟨k1, k1s⟩ := decodeInteger_enc st.s1 (seg.getD 1 0)
      ((encodeInteger st.s2 (seg.getD 2 0)).2 ++ ((encodeInteger st.s3 (seg.getD 3 0)).2
        ++ ((encodeInteger st.s4 (seg.getD 4 0)).2 ++ rest))) hst1 hv1
    obtain ⟨k0, k0s⟩ := decodeInteger_enc st.s0 (seg.getD 0 0)
      ((encodeInteger st.s1 (seg.getD 1 0)).2 ++ ((encodeInteger st.s2 (seg.getD 2 0)).2
        ++ ((encodeInteger st.s3 (seg.getD 3 0)).2 ++ ((encodeInteger st.s4
          (seg.getD 4 0)).2 ++ rest)))) hst0 hv0
    obtain ⟨d, t, hdt, h44, h59⟩ := encodeInteger_stream st.s0 (seg.getD 0 0)
    have hline5 : (line ++ [seg] : List Seg)
        = line ++ [[seg.getD 0 0, seg.getD 1 0, seg.getD 2 0, seg.getD 3 0,
            seg.getD 4 0]] := by
      conv_lhs => rw [list_len5 seg h5]
    rw [hES]
    dsimp only
    simp only [List.append_assoc]
    rw [hdt, List.cons_append]
    rw [decodeRun_field5 d _ h44 h59 st decoded line true lastCol
      (by
        rw [← List.cons_append, ← hdt, k0]
        exact hasMore_encInt st.s1 (seg.getD 1 0) _)
      (by
        rw [← List.cons_append, ← hdt]
        simp only [k0, k1, k2, k3]
        exact hasMore_encInt st.s4 (seg.getD 4 0) _)]
    rw [← List.cons_append, ← hdt]
    simp only [k0, k1, k2, k3, k4, k0s, k1s, k2s, k3s, k4s]
    rw [hline5]
    rw [if_neg hnotlt]

/-- Encoding a segment keeps the delta state well-formed. -/
theorem encodeSegment_stOk (st : VState) (seg : Seg) (hst : StOk st) (hseg : SegOk seg) :
    StOk (encodeSegment st seg).1 := by
  obtain ⟨hst0, hst1, hst2, hst3, hst4⟩ := hst
  obtain ⟨har, hval⟩ := hseg
  have hv0 : InRange (seg.getD 0 0) := hval _ (getD_mem seg 0 (by omega))
  rcases har with h1 | h4 | h5
  · have hES : encodeSegment st seg
        = ({ st with s0 := (encodeInteger st.s0 (seg.getD 0 0)).1 },
           (encodeInteger st.s0 (seg.getD 0 0)).2) := by
      simp only [encodeSegment]
      rw [if_pos h1]
    rw [hES]
    simp only [StOk]
    rw [encodeInteger_fst st.s0 _ hv0]
    exact ⟨hv0, hst1, hst2, hst3, hst4⟩
  · have hv1 : InRange (seg.getD 1 0) := hval _ (getD_mem seg 1 (by omega))
    have hv2 : InRange (seg.getD 2 0) := hval _ (getD_mem seg 2 (by omega))
    have hv3 : InRange (seg.getD 3 0) := hval _ (getD_mem seg 3 (by omega))
    have hES : encodeSegment st seg
        = (⟨(encodeInteger st.s0 (seg.getD 0 0)).1,
            (encodeInteger st.s1 (seg.getD 1 0)).1,
            (encodeInteger st.s2 (seg.getD 2 0)).1,
            (encodeInteger st.s3 (seg.getD 3 0)).1, st.s4⟩,
           (encodeInteger st.s0 (seg.getD 0 0)).2
             ++ (encodeInteger st.s1 (seg.getD 1 0)).2
             ++ (encodeInteger st.s2 (seg.getD 2 0)).2
             ++ (encodeInteger st.s3 (seg.getD 3 0)).2) := by
      simp only [encodeSegment]
      rw [if_neg (by omega), if_pos h4]
    rw [hES]
    simp only [StOk]
    rw [encodeInteger_fst st.s0 _ hv0, encodeInteger_fst st.s1 _ hv1,
        encodeInteger_fst st.s2 _ hv2, encodeInteger_fst st.s3 _ hv3]
    exact ⟨hv0, hv1, hv2, hv3, hst4⟩
  · have hv1 : InRange (seg.getD 1 0) := hval _ (getD_mem seg 1 (by omega))
    have hv2 : InRange (seg.getD 2 0) := hval _ (getD_mem seg 2 (by omega))
    have hv3 : InRange (seg.getD 3 0) := hval _ (getD_mem seg 3 (by omega))
    have hv4 : InRange (seg.getD 4 0) := hval _ (getD_mem seg 4 (by omega))
    have hES : encodeSegment st seg
        = (⟨(encodeInteger st.s0 (seg.getD 0 0)).1,
            (encodeInteger st.s1 (seg.getD 1 0)).1,
            (encodeInteger st.s2 (seg.getD 2 0)).1,
            (encodeInteger st.s3 (seg.getD 3 0)).1,
            (encodeInteger st.s4 (seg.getD 4 0)).1⟩,
           (encodeInteger st.s0 (seg.getD 0 0)).2
             ++ (encodeInteger st.s1 (seg.getD 1 0)).2
             ++ (encodeInteger st.s2 (seg.getD 2 0)).2
             ++ (encodeInteger st.s3 (seg.getD 3 0)).2
             ++ (encodeInteger st.s4 (seg.getD 4 0)).2) := by
      simp only [encodeSegment]
      rw [if_neg (by omega), if_neg (by omega)]
    rw [hES]
    simp only [StOk]
    rw [encodeInteger_fst st.s0 _ hv0, encodeInteger_fst st.s1 _ hv1,
        encodeInteger_fst st.s2 _ hv2, encodeInteger_fst st.s3 _ hv3,
        encodeInteger_fst st.s4 _ hv4]
    exact ⟨hv0, hv1, hv2, hv3, hv4⟩

/-- Encoding a run of segments keeps the delta state well-formed. -/
theorem encodeSegs_stOk : ∀ (segs : List Seg) (st : VState) (isFirst : Bool),
    StOk st → (∀ s ∈ segs, SegOk s) → StOk (encodeSegs st segs isFirst).1 := by
  intro segs
  induction segs with
  | nil => intro st isFirst hst _; exact hst
  | cons seg rest ih =>
    intro st isFirst hst hall
    exact ih (encodeSegment st seg).1 false
      (encodeSegment_stOk st seg hst (hall seg (by simp)))
      (fun s hs => hall s (by simp [hs]))

/-- The stream of an encoded segment run followed by a boundary is at a
boundary exactly when the run is empty, else starts with a comma. -/
theorem encodeSegs_sep (st : VState) (segs : List Seg) (rest : List Nat)
    (h : IsSep rest) : IsSep ((encodeSegs st segs false).2 ++ rest) := by
  cases segs with
  | nil => exact h
  | cons seg t =>
    show IsSep ((([44] ++ (encodeSegment st seg).2
      ++ (encodeSegs (encodeSegment st seg).1 t false).2) ++ rest))
    simp only [List.cons_append, List.nil_append, List.append_assoc]
    exact Or.inl rfl

/-- The tail stream of encoded lines is empty or starts with a
semicolon. -/
theorem encodeLines_sep (st : VState) (lines : List (List Seg)) :
    IsSep (encodeLines st lines false) := by
  cases lines with
  | nil => trivial
  | cons l ls =>
    simp only [encodeLines]
    by_cases hl : l.length = 0
    · rw [if_pos hl]
      exact Or.inr rfl
    · rw [if_neg hl]
      exact Or.inr rfl

/-- Decoding a comma-separated run of encoded segments appends the
segments to the current row and tracks the encoder state. -/
theorem decodeRun_segs : ∀ (segs : List Seg) (st : VState) (rest : List Nat)
    (decoded : List (List Seg)) (line : List Seg) (lastCol : Int),
    StOk st → (∀ s ∈ segs, SegOk s) → List.Pairwise keyLe segs →
    (∀ s ∈ segs, lastCol ≤ s.getD 0 0) → IsSep rest →
    decodeRun ((encodeSegs st segs false).2 ++ rest) st decoded line true lastCol
      = decodeRun rest (encodeSegs st segs false).1 decoded (line ++ segs) true
          (lastColAfter lastCol segs) := by
  intro segs
  induction segs with
  | nil =>
    intro st rest decoded line lastCol _ _ _ _ _
    simp [encodeSegs, lastColAfter]
  | cons seg t ih =>
    intro st rest decoded line lastCol hst hall hpair hbound hsep
    have hsegok : SegOk seg := hall seg (by simp)
    have hcol : lastCol ≤ seg.getD 0 0 := hbound seg (by simp)
    have hE : (encodeSegs st (seg :: t) false).2
        = 44 :: ((encodeSegment st seg).2
            ++ (encodeSegs (encodeSegment st seg).1 t false).2) := by
      simp only [encodeSegs]
      simp
    rw [hE]
    rw [List.cons_append, decodeRun_comma, List.append_assoc]
    rw [decodeRun_seg st seg _ decoded line lastCol
      ⟨hst.1, hst.2.1, hst.2.2.1, hst.2.2.2.1, hst.2.2.2.2⟩ hsegok hcol
      (encodeSegs_sep (encodeSegment st seg).1 t rest hsep)]
    rw [ih (encodeSegment st seg).1 rest decoded (line ++ [seg]) (seg.getD 0 0)
      (encodeSegment_stOk st seg hst hsegok)
      (fun s hs => hall s (by simp [hs]))
      (List.Pairwise.sublist (List.sublist_cons_self seg t) hpair)
      (fun s hs => (List.pairwise_cons.mp hpair).1 s hs)
      hsep]
    have hstate : (encodeSegs st (seg :: t) false).1
        = (encodeSegs (encodeSegment st seg).1 t false).1 := by
      simp only [encodeSegs]
    have hlca : lastColAfter lastCol (seg :: t)
        = lastColAfter (seg.getD 0 0) t := rfl
    rw [hstate, hlca, List.append_assoc]
    simp

/-- Decoding one encoded line (no leading comma) from a fresh row
reconstructs the row and tracks the encoder state. -/
theorem decodeRun_line (st : VState) (segs : List Seg) (rest : List Nat)
    (decoded : List (List Seg)) (hst : StOk st) (hall : ∀ s ∈ segs, SegOk s)
    (hpair : List.Pairwise keyLe segs) (hne : segs ≠ []) (hsep : IsSep rest) :
    decodeRun ((encodeSegs st segs true).2 ++ rest) st decoded [] true 0
      = decodeRun rest (encodeSegs st segs true).1 decoded segs true
          (lastColAfter 0 segs) := by
  cases segs with
  | nil => exact absurd rfl hne
  | cons seg t =>
    have hsegok : SegOk seg := hall seg (by simp)
    have hlen0 : 0 < seg.length := by rcases hsegok.1 with h | h | h <;> omega
    have hcol : (0 : Int) ≤ seg.getD 0 0 := (hsegok.2 _ (getD_mem seg 0 hlen0)).1
    have hE : (encodeSegs st (seg :: t) true).2
        = (encodeSegment st seg).2
            ++ (encodeSegs (encodeSegment st seg).1 t false).2 := by
      simp only [encodeSegs]
      simp
    rw [hE, List.append_assoc]
    rw [decodeRun_seg st seg _ decoded [] 0 hst hsegok hcol
      (encodeSegs_sep (encodeSegment st seg).1 t rest hsep)]
    rw [decodeRun_segs t (encodeSegment st seg).1 rest decoded ([] ++ [seg])
      (seg.getD 0 0)
      (encodeSegment_stOk st seg hst hsegok)
      (fun s hs => hall s (by simp [hs]))
      (List.Pairwise.sublist (List.sublist_cons_self seg t) hpair)
      (fun s hs => (List.pairwise_cons.mp hpair).1 s hs)
      hsep]
    have hstate : (encodeSegs st (seg :: t) true).1
        = (encodeSegs (encodeSegment st seg).1 t false).1 := by
      simp only [encodeSegs]
    have hlca : lastColAfter 0 (seg :: t) = lastColAfter (seg.getD 0 0) t := rfl
    rw [hstate, hlca]
    simp

/-- Decoding the semicolon-prefixed tail lines appends each line as a
row (already sorted, so emitted unchanged).  The decoder state may
differ from the encoder state in slot 0: an empty line leaves the
encoder state untouched while the decoder resets slot 0, and slot 0 is
reset by both sides before the next non-empty line. -/
theorem decodeRun_lines : ∀ (lines : List (List Seg)) (st dst : VState)
    (decoded : List (List Seg)) (curLine : List Seg) (lastCol : Int),
    dst.s1 = st.s1 → dst.s2 = st.s2 → dst.s3 = st.s3 → dst.s4 = st.s4 →
    StOk st → MapOk lines →
    decodeRun (encodeLines st lines false) dst decoded curLine true lastCol
      = decoded ++ [curLine] ++ lines := by
  intro lines
  induction lines with
  | nil =>
    intro st dst decoded curLine lastCol _ _ _ _ _ _
    show decodeRun [] dst decoded curLine true lastCol = decoded ++ [curLine] ++ []
    rw [decodeRun_nil]
    simp
  | cons l ls ih =>
    intro st dst decoded curLine lastCol hs1 hs2 hs3 hs4 hst hok
    have hlsok : MapOk ls := fun row hr => hok row (by simp [hr])
    have hst0 : StOk { st with s0 := 0 } :=
      ⟨⟨le_refl 0, by norm_num⟩, hst.2.1, hst.2.2.1, hst.2.2.2.1, hst.2.2.2.2⟩
    by_cases hl : l.length = 0
    · have hlnil : l = [] := List.length_eq_zero.mp hl
      have hE : encodeLines st (l :: ls) false = 59 :: encodeLines st ls false := by
        simp only [encodeLines]
        rw [if_pos hl]
        simp
      rw [hE, decodeRun_semi]
      rw [ih st { dst with s0 := 0 }
        (decoded ++ [if true then curLine else sortLine curLine]) [] 0
        (by simpa using hs1) (by simpa using hs2) (by simpa using hs3)
        (by simpa using hs4) hst hlsok]
      rw [hlnil]
      simp
    · have hlne : l ≠ [] := fun h => hl (by simp [h])
      obtain ⟨hallok, hpair⟩ := hok l (by simp)
      have hE : encodeLines st (l :: ls) false
          = 59 :: ((encodeSegs { st with s0 := 0 } l true).2
              ++ encodeLines (encodeSegs { st with s0 := 0 } l true).1 ls false) := by
        simp only [encodeLines]
        rw [if_neg hl]
        simp
      rw [hE, decodeRun_semi]
      have hdst : ({ dst with s0 := 0 } : VState) = { st with s0 := 0 } := by
        cases dst
        cases st
        simp only at hs1 hs2 hs3 hs4
        simp [hs1, hs2, hs3, hs4]
      rw [hdst]
      rw [decodeRun_line { st with s0 := 0 } l _ _ hst0 hallok hpair hlne
        (encodeLines_sep _ ls)]
      rw [ih (encodeSegs { st with s0 := 0 } l true).1
        (encodeSegs { st with s0 := 0 } l true).1 _ l (lastColAfter 0 l)
        rfl rfl rfl rfl
        (encodeSegs_stOk l _ true hst0 hallok) hlsok]
      simp

/-- C1 counterexample: the codec inverse fails as claimed.  The empty
decoded array (vacuously sorted, all values 32-bit) decodes back as one
empty row, and a sorted row holding the 32-bit values `-0x80000000`
then `0` comes back with the second value changed to `-0x80000000`: the
delta `+2^31` overflows the signed VLQ. -/
theorem codec_inverse_counterexample :
    decode (encode []) = [[]] ∧
    ([[]] : List (List Seg)) ≠ [] ∧
    List.Pairwise keyLe [[(-2147483648 : Int)], [0]] ∧
    decode (encode [[[-2147483648], [0]]]) = [[[-2147483648], [-2147483648]]] ∧
    ([[[(-2147483648 : Int)], [-2147483648]]] : List (List Seg))
      ≠ [[[(-2147483648 : Int)], [0]]] :=
  ⟨by rfl, by simp, by decide, by rfl, by decide⟩

/-- C1 amended: for every non-empty decoded mappings array whose rows
are sorted non-decreasing by generated column, whose segments have
arity 1, 4 or 5 and whose values all lie in `[0, 2^31)` (the value
range of source-map fields), encoding and then decoding is the
identity. -/
theorem codec_inverse_amended (d : List (List Seg)) (hne : d ≠ []) (hok : MapOk d) :
    decode (encode d) = d := by
  have hdec : decode (encode d) = decodeRun (encode d) VState.zero [] [] true 0 := rfl
  rw [hdec]
  cases d with
  | nil => exact absurd rfl hne
  | cons l ls =>
    obtain ⟨hallok, hpair⟩ := hok l (by simp)
    have hls : MapOk ls := fun row hr => hok row (by simp [hr])
    have hz : StOk VState.zero :=
      ⟨⟨by decide, by decide⟩, ⟨by decide, by decide⟩, ⟨by decide, by decide⟩,
       ⟨by decide, by decide⟩, ⟨by decide, by decide⟩⟩
    show decodeRun (encodeLines VState.zero (l :: ls) true) VState.zero [] [] true 0
      = l :: ls
    by_cases hl : l.length = 0
    · have hlnil : l = [] := List.length_eq_zero.mp hl
      have hE : encodeLines VState.zero (l :: ls) true
          = encodeLines VState.zero ls false := by
        simp only [encodeLines]
        rw [if_pos hl]
        simp
      rw [hE]
      rw [decodeRun_lines ls VState.zero VState.zero [] [] 0 rfl rfl rfl rfl hz hls]
      rw [hlnil]
      simp
    · have hlne : l ≠ [] := fun h => hl (by simp [h])
      have hE : encodeLines VState.zero (l :: ls) true
          = (encodeSegs { VState.zero with s0 := 0 } l true).2
              ++ encodeLines (encodeSegs { VState.zero with s0 := 0 } l true).1
                  ls false := by
        simp only [encodeLines]
        rw [if_neg hl]
        simp
      rw [hE]
      rw [show ({ VState.zero with s0 := 0 } : VState) = VState.zero from rfl]
      rw [decodeRun_line VState.zero l _ _ hz hallok hpair hlne (encodeLines_sep _ ls)]
      rw [decodeRun_lines ls (encodeSegs VState.zero l true).1
        (encodeSegs VState.zero l true).1 _ l (lastColAfter 0 l) rfl rfl rfl rfl
        (encodeSegs_stOk l _ true hz hallok) hls]
      simp

/-- Witness for `codec_inverse_amended` at a concrete sorted mappings
value with an empty middle line and segments of arity 4, 5 and 1. -/
theorem codec_inverse_amended_witness :
    ([[[0, 0, 0, 0], [9, 0, 0, 9, 0]], [], [[5]]] : List (List Seg)) ≠ [] ∧
    MapOk [[[0, 0, 0, 0], [9, 0, 0, 9, 0]], [], [[5]]] ∧
    decode (encode [[[0, 0, 0, 0], [9, 0, 0, 9, 0]], [], [[5]]])
      = [[[0, 0, 0, 0], [9, 0, 0, 9, 0]], [], [[5]]] :=
  ⟨by simp, by simp only [MapOk, SegOk, InRange]; decide,
   codec_inverse_amended [[[0, 0, 0, 0], [9, 0, 0, 9, 0]], [], [[5]]] (by simp)
     (by simp only [MapOk, SegOk, InRange]; decide)⟩

end SourcemapToolkit
